import Mathlib

set_option maxRecDepth 100000

/-!
Verification development for the voxel-engine chunk core of the CubeGameClone
repository.  The definitions below are a shallow embedding of the Rust source:

* `src/world/chunk.rs`   — `ChunkData`, palette handling, packed conversion,
  coordinate conversions;
* `src/world/block.rs`   — `BlockState`, `BlockWorld::set_block`, the
  finished-mesh upload loop `upload_meshes`;
* `src/render/chunk.rs`  — the face-culling mesher (`culled_sides`,
  `should_skip`, the face-collection loops);
* `src/render/block.rs`  — `BlockModelMinimal.is_full`;
* `src/core/event.rs`    — `SetBlockEvent`.

Machine integers are modelled as `Nat`/`Int` with explicit wrapping where it
matters.  Rust panics (index out of bounds, explicit `panic!`, failed
`assert!`) are modelled as a `fatal` error value in the `GErr` error type,
while recoverable `ChunkError`/`WorldError` results keep their own
constructors, so that "fails with the OutOfBounds error" and "panics" are
distinguishable, exactly as they are for a Rust caller using
`catch_unwind`-free code.
-/

/-- Block position / chunk position vector of three signed 32-bit integers
(`bevy::math::IVec3`), modelled with unbounded `Int` components. -/
structure IVec3 where
  x : Int
  y : Int
  z : Int
deriving DecidableEq, Repr

/-- Componentwise addition, mirroring `IVec3: Add`. -/
instance : Add IVec3 where
  add a b := ⟨a.x + b.x, a.y + b.y, a.z + b.z⟩

/-- Componentwise subtraction, mirroring `IVec3: Sub`. -/
instance : Sub IVec3 where
  sub a b := ⟨a.x - b.x, a.y - b.y, a.z - b.z⟩

/-- Helper mirroring `bevy::math::ivec3`. -/
def ivec3 (x y z : Int) : IVec3 := ⟨x, y, z⟩

/-- Reinterpretation of a `usize` value as an `i32` (Rust `as i32` cast),
used when building the `OutOfBounds` error payload from `usize` coordinates. -/
def usizeToI32 (n : Nat) : Int :=
  if n % 2 ^ 32 < 2 ^ 31 then (n % 2 ^ 32 : Int) else (n % 2 ^ 32 : Int) - 2 ^ 32

/-- Reinterpretation of an `i32` value as a `usize` (Rust `as usize` cast on a
64-bit target): negative values wrap modulo `2^64`. -/
def i32ToUsize (i : Int) : Nat := (i % 2 ^ 64).toNat

/-- Block state: an interned block id plus an ordered property map
(`BlockState` in `src/world/block.rs`; the `BTreeMap` is modelled as an
association list).  Equality is structural, as derived in the source. -/
structure BlockState where
  block : String
  state : List (String × String)
deriving DecidableEq, Repr

/-- Mirrors `BlockState::is_air`: compares the block-id string with "air". -/
def BlockState.is_air (s : BlockState) : Bool := s.block == "air"

/-- Error outcomes of the embedded operations.  `outOfBounds`, `uninit`,
`alreadyInit`, `unloadedChunk` model the recoverable `ChunkError` /
`WorldError` variants; `fatal` models a Rust panic (explicit `panic!`,
slice-index out of bounds, failed `assert!`, `todo!`). -/
inductive GErr where
  | outOfBounds (pos : IVec3)
  | uninit (pos : IVec3)
  | alreadyInit (pos : IVec3)
  | unloadedChunk (pos : IVec3)
  | fatal (msg : String)
deriving DecidableEq, Repr

/-- Decidable equality for `Except` results, so that concrete runs of the
embedded operations can be checked by `decide`. -/
instance {ε α : Type} [DecidableEq ε] [DecidableEq α] : DecidableEq (Except ε α)
  | .ok a, .ok b =>
    if h : a = b then .isTrue (by rw [h]) else .isFalse (by simp [h])
  | .error e, .error f =>
    if h : e = f then .isTrue (by rw [h]) else .isFalse (by simp [h])
  | .ok _, .error _ => .isFalse (by simp)
  | .error _, .ok _ => .isFalse (by simp)

/-- Lifts an `Option` produced by a slice access to an `Except`, turning
`none` (out-of-range index) into the corresponding Rust panic. -/
def liftO {α : Type} (msg : String) : Option α → Except GErr α
  | some a => .ok a
  | none => .error (.fatal msg)

/-- Panic message used for out-of-range `Vec` indexing. -/
def oobMsg : String := "index out of bounds"

/-- Effectful map over a list, stopping at the first error: models the
source's `for` loops whose bodies can panic. -/
def mapE {α β : Type} (f : α → Except GErr β) : List α → Except GErr (List β)
  | [] => .ok []
  | a :: l => do
    let b ← f a
    let bs ← mapE f l
    .ok (b :: bs)

/-- Palette row (`PaletteEntry` in `src/world/chunk.rs`): a reference count
plus a block state.  `ref_count` is a `u16` in the source; it never exceeds
the cell count 32768 in reachable states, so it is modelled as a plain `Nat`.
The derived equality compares both fields, as `#[derive(PartialEq)]` does. -/
structure PaletteEntry where
  ref_count : Nat
  block : BlockState
deriving DecidableEq, Repr

/-- Mirrors `PaletteEntry::new`: a fresh entry has `ref_count == 0`. -/
def PaletteEntry.new (state : BlockState) : PaletteEntry := ⟨0, state⟩

/-- Mirrors `PaletteEntry::is_free`. -/
def PaletteEntry.is_free (p : PaletteEntry) : Bool := p.ref_count == 0

/-- The palette-compressed voxel grid of one chunk (`ChunkData` in
`src/world/chunk.rs`).  `data` is the raw cell array (one byte per cell, or
two little-endian bytes per cell when `double_bytes` is set); bytes are `Nat`
values kept below 256 by the writing operations. -/
structure ChunkData where
  palette : List PaletteEntry
  data : List Nat
  is_single : Bool
  double_bytes : Bool
deriving DecidableEq, Repr

/-- Mirrors `ChunkData::CHUNK_SIZE`. -/
def CHUNK_SIZE : Nat := 32

/-- Mirrors `ChunkData::BLOCKS_PER_CHUNK`. -/
def BLOCKS_PER_CHUNK : Nat := CHUNK_SIZE ^ 3

/-- Mirrors `ChunkData::DOUBLE_BLOCKS_PER_CHUNK`. -/
def DOUBLE_BLOCKS_PER_CHUNK : Nat := BLOCKS_PER_CHUNK * 2

/-- Mirrors the free function `xyz_to_index`: linearises a coordinate as
`y * 32 * 32 + x * 32 + z`. -/
def xyz_to_index (x y z : Nat) : Nat :=
  CHUNK_SIZE * CHUNK_SIZE * y + CHUNK_SIZE * x + z

/-- Mirrors `index_to_xyz` from `src/render/chunk.rs`. -/
def index_to_xyz (i : Nat) : Nat × Nat × Nat :=
  ((i / CHUNK_SIZE) % CHUNK_SIZE, i / (CHUNK_SIZE * CHUNK_SIZE), i % CHUNK_SIZE)

/-- Mirrors `ChunkData::with_data`: validates that the raw byte array has
exactly the length demanded by the palette's width class, panicking on a
mismatch. -/
def ChunkData.with_data (data : List Nat) (palette : List PaletteEntry) :
    Except GErr ChunkData :=
  let double_bytes := decide (256 < palette.length)
  if (data.length = BLOCKS_PER_CHUNK ∧ double_bytes = false) ∨
      (data.length = DOUBLE_BLOCKS_PER_CHUNK ∧ double_bytes = true) then
    .ok ⟨palette, data, false, double_bytes⟩
  else
    .error (.fatal "Invalid size of data")

/-- Mirrors `ChunkData::single`: a one-entry palette (with `ref_count == 0`,
per `PaletteEntry::new`) and no cell array. -/
def ChunkData.single (state : BlockState) : ChunkData :=
  ⟨[PaletteEntry.new state], [], true, false⟩

/-- Mirrors `ChunkData::is_empty`. -/
def ChunkData.is_empty (c : ChunkData) : Bool :=
  c.is_single && ((c.palette.getD 0 (PaletteEntry.new ⟨"", []⟩)).block.is_air)

/-- Mirrors `ChunkData::block_at_index`: reads the palette index stored for
one cell.  Single-mode chunks always report index 0; dense chunks read one
byte, or two little-endian bytes (`(data[2i+1] << 8) | data[2i]`). -/
def ChunkData.block_at_index (c : ChunkData) (index : Nat) : Except GErr Nat :=
  if c.is_single then .ok 0
  else if c.double_bytes then do
    let hi ← liftO oobMsg (c.data.get? (index * 2 + 1))
    let lo ← liftO oobMsg (c.data.get? (index * 2))
    .ok ((hi <<< 8) ||| lo)
  else
    liftO oobMsg (c.data.get? index)

/-- Mirrors `ChunkData::block_at`: bounds-checked cell read that panics (does
not return a recoverable error) when a coordinate is at least 32. -/
def ChunkData.block_at (c : ChunkData) (x y z : Nat) : Except GErr Nat :=
  if CHUNK_SIZE ≤ x ∨ CHUNK_SIZE ≤ y ∨ CHUNK_SIZE ≤ z then
    .error (.fatal "point is out of bounds")
  else
    c.block_at_index (xyz_to_index x y z)

/-- Mirrors `ChunkData::get_block`: bounds-checked read returning the
`OutOfBounds` `ChunkError` for a coordinate at least 32, then decoding the
stored palette index to a block state. -/
def ChunkData.get_block (c : ChunkData) (x y z : Nat) :
    Except GErr BlockState := do
  if CHUNK_SIZE ≤ x ∨ CHUNK_SIZE ≤ y ∨ CHUNK_SIZE ≤ z then
    .error (.outOfBounds (ivec3 (usizeToI32 x) (usizeToI32 y) (usizeToI32 z)))
  else do
    let id ← c.block_at x y z
    let entry ← liftO oobMsg (c.palette.get? id)
    .ok entry.block

/-- Mirrors `ChunkData::first_free_palette`: scans indices 1 and upward (index
0 is deliberately skipped) for a free entry. -/
def ChunkData.first_free_palette (c : ChunkData) : Option Nat :=
  if c.palette.length = 0 then none
  else ((List.range' 1 (c.palette.length - 1)).find? fun i =>
    ((c.palette.getD i (PaletteEntry.new ⟨"", []⟩)).is_free))

/-- Mirrors `ChunkData::grow_data`: widens a one-byte chunk to two bytes per
cell, interleaving a zero most-significant byte after each existing byte.
Panics if the chunk is already double width, or (as the source's `data[i]`
indexing does) if the raw array is shorter than `BLOCKS_PER_CHUNK`. -/
def ChunkData.grow_data (c : ChunkData) : Except GErr ChunkData := do
  if c.double_bytes then
    .error (.fatal "Cannot grow chunk data that is already double byte")
  else do
    let bytes ← mapE (fun i => liftO oobMsg (c.data.get? i))
      (List.range BLOCKS_PER_CHUNK)
    .ok { c with data := bytes.flatMap (fun b => [b, 0]), double_bytes := true }

/-- Mirrors `ChunkData::add_palette`: returns the index of an entry equal to
the argument (full structural equality, including the reference count) if one
exists; otherwise recycles the first free slot at index 1 or above; otherwise
appends, growing the data to double width first when the palette already
holds exactly 256 entries. -/
def ChunkData.add_palette (c : ChunkData) (entry : PaletteEntry) :
    Except GErr (Nat × ChunkData) := do
  match c.palette.findIdx? (fun p => p == entry) with
  | some i => .ok (i, c)
  | none =>
    match c.first_free_palette with
    | some i => .ok (i, { c with palette := c.palette.set i entry })
    | none => do
      let c ← if c.palette.length = 256 then c.grow_data else pure c
      .ok (c.palette.length, { c with palette := c.palette ++ [entry] })

/-- Mirrors `ChunkData::set_raw`: writes a palette index into the raw cell
array (one byte, or two little-endian bytes), panicking on a single-mode
chunk and on an out-of-range index. -/
def ChunkData.set_raw (c : ChunkData) (index block_id : Nat) :
    Except GErr ChunkData :=
  if c.is_single then .error (.fatal "Cannot set raw on single chunks")
  else if c.double_bytes then
    if index * 2 + 1 < c.data.length then
      let d := (c.data.set (index * 2) (block_id % 256)).set (index * 2 + 1)
        ((block_id >>> 8) % 256)
      .ok { c with data := d }
    else .error (.fatal oobMsg)
  else
    if index < c.data.length then
      .ok { c with data := c.data.set index (block_id % 256) }
    else .error (.fatal oobMsg)

/-- Helper for the single-to-dense transition inside `set_block`: mirrors the
three statements `self.is_single = false; self.data = vec![0; CHUNK_SIZE];
self.palette[0].ref_count = BLOCKS_PER_CHUNK as u16`.  Note the source
allocates `CHUNK_SIZE` (32) zero bytes here, not `BLOCKS_PER_CHUNK`. -/
def ChunkData.materialize_single (c : ChunkData) : Except GErr ChunkData := do
  let e0 ← liftO oobMsg (c.palette.get? 0)
  let pal := c.palette.set 0 { e0 with ref_count := BLOCKS_PER_CHUNK }
  .ok { c with is_single := false, data := List.replicate CHUNK_SIZE 0, palette := pal }

/-- The tail of `ChunkData::set_block` after the (possible) single-to-dense
transition: reference-count decrement of the outgoing entry (panicking if it
was already free), then either an increment of an existing palette entry with
the same block (the source's linear scan, modelled with `findIdx?`) or an
`add_palette` insertion, and finally the raw-cell rewrite.  Split into its
own definition to keep the control flow of the embedding flat. -/
def ChunkData.set_block_dense (c : ChunkData) (index old_block : Nat)
    (block : BlockState) : Except GErr (ChunkData × BlockState) := do
  let p ← liftO oobMsg (c.palette.get? old_block)
  if p.is_free then
    .error (.fatal "Invalid palette data: palette is free, but exists in data")
  else do
    let pal := c.palette.set old_block { p with ref_count := p.ref_count - 1 }
    let c := { c with palette := pal }
    let ret := p.block
    match c.palette.findIdx? (fun q => q.block == block) with
    | some j => do
      let pj ← liftO oobMsg (c.palette.get? j)
      let pal := c.palette.set j { pj with ref_count := pj.ref_count + 1 }
      let c := { c with palette := pal }
      let c ← c.set_raw index j
      .ok (c, ret)
    | none => do
      let (block_id, c) ← c.add_palette (PaletteEntry.new block)
      let pb ← liftO oobMsg (c.palette.get? block_id)
      let pal := c.palette.set block_id { pb with ref_count := pb.ref_count + 1 }
      let c := { c with palette := pal }
      let c ← c.set_raw index block_id
      .ok (c, ret)

/-- Mirrors `ChunkData::set_block`, the only mutator: bounds check (returning
the recoverable `OutOfBounds` error), no-op when the cell already holds the
requested state, lazy single-to-dense materialisation, then the dense write
path `set_block_dense`.  Returns the new chunk together with the old block
state. -/
def ChunkData.set_block (c : ChunkData) (x y z : Nat) (block : BlockState) :
    Except GErr (ChunkData × BlockState) := do
  if CHUNK_SIZE ≤ x ∨ CHUNK_SIZE ≤ y ∨ CHUNK_SIZE ≤ z then
    .error (.outOfBounds (ivec3 (usizeToI32 x) (usizeToI32 y) (usizeToI32 z)))
  else do
    let old_block ← c.block_at x y z
    let index := xyz_to_index x y z
    let old_entry ← liftO oobMsg (c.palette.get? old_block)
    if old_entry.block == block then
      .ok (c, block)
    else
      (if c.is_single then c.materialize_single else pure c) >>= fun c =>
        ChunkData.set_block_dense c index old_block block

/-- Fuel-driven floor base-2 logarithm (structurally recursive so that it
reduces under `decide`; the fuel `n` always suffices for input `n`). -/
def log2Fuel : Nat → Nat → Nat
  | 0, _ => 0
  | fuel + 1, n => if 2 ≤ n then log2Fuel fuel (n / 2) + 1 else 0

/-- Floor base-2 logarithm. -/
def floorLog2 (n : Nat) : Nat := log2Fuel n n

/-- Rounding of an integer to the nearest `f32` value (round-to-nearest,
ties-to-even), restricted to integer inputs as produced by
`IVec3::as_vec3()`.  Integers of magnitude at most `2^24` are exactly
representable; beyond that the value is rounded to the nearest multiple of
the binade's spacing `2^(e-23)`. -/
def roundF32 (p : Int) : Int :=
  let a := p.natAbs
  if a ≤ 2 ^ 24 then p
  else
    let e := floorLog2 a
    let g := 2 ^ (e - 23)
    let q := a / g
    let r := a % g
    let rounded :=
      if r * 2 < g then q * g
      else if g < r * 2 then q * g + g
      else if q % 2 = 0 then q * g else q * g + g
    p.sign * rounded

/-- Mirrors one axis of `pos_to_chunk_pos` in `src/world/chunk.rs`: the source
converts the integer position to `f32` (`pos.as_vec3()`), divides by 32.0 and
takes the floor.  Conversion to `f32` may round (`roundF32`); the division by
the power of two 32 and the floor are then exact, so the result is the floor
division of the rounded value by 32. -/
def pos_to_chunk_pos_axis (p : Int) : Int := Int.fdiv (roundF32 p) 32

/-- Mirrors `pos_to_chunk_pos` componentwise. -/
def pos_to_chunk_pos (pos : IVec3) : IVec3 :=
  ivec3 (pos_to_chunk_pos_axis pos.x) (pos_to_chunk_pos_axis pos.y)
    (pos_to_chunk_pos_axis pos.z)

/-- Mirrors `pos_to_chunk_local`: `pos - CHUNK_SIZE * pos_to_chunk_pos(pos)`
in exact `i32` arithmetic. -/
def pos_to_chunk_local (pos : IVec3) : IVec3 :=
  pos - ivec3 (32 * pos_to_chunk_pos_axis pos.x) (32 * pos_to_chunk_pos_axis pos.y)
    (32 * pos_to_chunk_pos_axis pos.z)

/-- Per-tick upload budget, mirroring `MIB_PER_FRAME` in `src/world/block.rs`
(1 MiB of vertex-buffer bytes, stored in an `i32`). -/
def MIB_PER_FRAME : Int := 1024 * 1024 * 1

/-- A finished chunk mesh as seen by the upload stage: all `upload_meshes`
reads from a `bevy::Mesh` is `get_vertex_buffer_size()`, so the mesh is
modelled by that byte count. -/
structure MeshV where
  vertex_buffer_size : Nat
deriving DecidableEq, Repr

/-- The `while !finished_meshing.is_empty() && hard_process_limit > 0` loop of
`upload_meshes` in `src/world/block.rs`.  `present` models membership in the
`ChunkMap` (`get_chunk(..).expect(..)` panics when the chunk is absent).
Returns the uploaded `(position, mesh)` pairs in order, together with the
queue that remains for the next tick.  A `None` mesh is popped and discarded
without touching the budget; a `Some` mesh is uploaded and its vertex-buffer
size (cast `as i32`) is subtracted from the remaining budget only after the
upload. -/
def uploadLoop (present : IVec3 → Bool) :
    List (IVec3 × Option MeshV) → Int →
    Except GErr (List (IVec3 × MeshV) × List (IVec3 × Option MeshV))
  | [], _ => .ok ([], [])
  | q, limit =>
    if limit ≤ 0 then .ok ([], q)
    else
      match q with
      | [] => .ok ([], [])
      | (_, none) :: rest => uploadLoop present rest limit
      | (coord, some mesh) :: rest =>
        if present coord then do
          let (up, rem) ← uploadLoop present rest
            (limit - usizeToI32 mesh.vertex_buffer_size)
          .ok ((coord, mesh) :: up, rem)
        else .error (.fatal "Cannot remesh chunk that is not in memory")

/-- Mirrors the `upload_meshes` system: runs the upload loop over the
`finished_meshing` queue with a fresh 1 MiB budget. -/
def upload_meshes (present : IVec3 → Bool)
    (finished_meshing : List (IVec3 × Option MeshV)) :
    Except GErr (List (IVec3 × MeshV) × List (IVec3 × Option MeshV)) :=
  uploadLoop present finished_meshing MIB_PER_FRAME

/-- Chunk generation status (`ChunkGenerationStatus`). -/
inductive ChunkGenerationStatus where
  | notGenerated
  | afterTerrain
  | afterDecorations
  | generated
deriving DecidableEq, Repr

/-- The chunk wrapper (`Chunk` in `src/world/chunk.rs`): position, optional
voxel data (the `Arc<RwLock<..>>` is collapsed — task concurrency is not
modelled), and generation status.  The Bevy `Entity` handle is omitted. -/
structure Chunk where
  pos : IVec3
  data : Option ChunkData
  generation_status : ChunkGenerationStatus
deriving DecidableEq, Repr

/-- Mirrors `Chunk::is_initialized`. -/
def Chunk.is_initialized (c : Chunk) : Bool :=
  c.data.isSome && (c.generation_status == .generated)

/-- Mirrors `Chunk::set_block`: fails with `Uninitialized` before generation
completes, then forwards to `ChunkData::set_block` with the coordinates cast
`as usize`. -/
def Chunk.set_block (c : Chunk) (pos : IVec3) (state : BlockState) :
    Except GErr (Chunk × BlockState) := do
  if !c.is_initialized then .error (.uninit c.pos)
  else
    match c.data with
    | none => .error (.uninit c.pos)
    | some d => do
      let (d, old) ← d.set_block (i32ToUsize pos.x) (i32ToUsize pos.y)
        (i32ToUsize pos.z) state
      .ok ({ c with data := some d }, old)

/-- The block-changed notification (`SetBlockEvent` in `src/core/event.rs`). -/
structure SetBlockEvent where
  pos : IVec3
  old : BlockState
  new : BlockState
deriving DecidableEq, Repr

/-- Mirrors `BlockWorld::set_block`: converts the world position to a chunk
position and chunk-local position, looks the chunk up in the map (failing
with `UnloadedChunk` when absent), performs the chunk-level write, and on
success triggers a `SetBlockEvent` carrying the world position and the old
and new states.  The map is modelled as a lookup function; the updated chunk
and the triggered event are returned alongside the old state. -/
def BlockWorld.set_block (map : IVec3 → Option Chunk) (pos : IVec3)
    (block : BlockState) :
    Except GErr (BlockState × Chunk × SetBlockEvent) := do
  let chunk_pos := pos_to_chunk_pos pos
  let chunk_local := pos_to_chunk_local pos
  match map chunk_pos with
  | none => .error (.unloadedChunk chunk_pos)
  | some chunk => do
    let (chunk, res) ← chunk.set_block chunk_local block
    .ok (res, chunk, ⟨pos, res, block⟩)

/-- Modelled from the spec: the remeshing trigger of spec section 4.4.  The
repository declares `SetBlockEvent` (`src/core/event.rs`) and triggers it
from `BlockWorld::set_block` (`src/world/block.rs`), but contains no observer
consuming the event, so the dirty-marking reaction exists only in the spec:
"compute the edited chunk and mark it dirty.  Additionally, if the edited
local coordinate lies on a chunk face (local axis value 0 or 31), mark the
corresponding axis-neighbor dirty too."  The function returns the chunk
positions marked as needing remeshing for one event. -/
def onSetBlockEvent (e : SetBlockEvent) : List IVec3 :=
  let cp := pos_to_chunk_pos e.pos
  let lp := pos_to_chunk_local e.pos
  cp ::
    ((if lp.x = 0 then [cp + ivec3 (-1) 0 0] else []) ++
     (if lp.x = 31 then [cp + ivec3 1 0 0] else []) ++
     (if lp.y = 0 then [cp + ivec3 0 (-1) 0] else []) ++
     (if lp.y = 31 then [cp + ivec3 0 1 0] else []) ++
     (if lp.z = 0 then [cp + ivec3 0 0 (-1)] else []) ++
     (if lp.z = 31 then [cp + ivec3 0 0 1] else []))

/-- The serialized chunk form (`PackedChunkData` in `src/world/chunk.rs`).
`PackedPaletteEntry` is field-for-field identical to `PaletteEntry` (the
source converts between them with trivial `From`/`Into` impls), so the same
structure is reused here. -/
structure PackedChunkData where
  palette : List PaletteEntry
  block_data : List Nat
  is_single : Bool
deriving DecidableEq, Repr

/-- Bits per cell id used by the packed form, mirroring the source expression
`2_usize.pow(ceil(log2(log2(palette.len() as f32))) as u32).max(1)`.  For a
length of at most 2 the inner float expression is at most zero (it is minus
infinity for lengths 0 and 1, whose cast to `u32` saturates to 0), so the
`.max(1)` clamp yields 1; beyond that the real-valued double logarithm with
ceiling agrees with the iterated ceiling base-2 logarithm `Nat.clog 2`. -/
def idSize (n : Nat) : Nat :=
  if n ≤ 2 then 1 else 2 ^ (Nat.clog 2 (Nat.clog 2 n))

/-- The qword-filling loop of `From<&ChunkData> for PackedChunkData`: packs
the masked cell ids into 64-bit words, least-significant bits first, pushing
a word whenever the bit pointer reaches 64.  The `u64` shift truncates above
bit 63, hence the modulus. -/
def packGo (s : Nat) : List Nat → Nat → Nat → List Nat
  | [], _, _ => []
  | id :: rest, quad_word, bit_pointer =>
    let mask := 2 ^ s - 1
    let to_add := ((id &&& mask) <<< bit_pointer) % 2 ^ 64
    let qw := quad_word ||| to_add
    let bp := bit_pointer + s
    if 64 ≤ bp then qw :: packGo s rest 0 0
    else packGo s rest qw bp

/-- Mirrors `From<&ChunkData> for PackedChunkData`: a single-mode chunk must
carry a full-ref-count one-entry palette (the source panics on "malformed"
data otherwise); a dense chunk has its free palette entries trimmed and its
cells packed with `packGo` at the bit width `idSize` of the trimmed palette. -/
def packChunk (c : ChunkData) : Except GErr PackedChunkData := do
  if c.is_single then
    if c.palette.length ≠ 1 then
      .error (.fatal "Malformed ChunkData: single but palette length is not 1")
    else if (c.palette.getD 0 (PaletteEntry.new ⟨"", []⟩)).ref_count ≠ BLOCKS_PER_CHUNK then
      .error (.fatal "Malformed ChunkData: single must have full refcount")
    else
      .ok ⟨[c.palette.getD 0 (PaletteEntry.new ⟨"", []⟩)], [], true⟩
  else do
    let palette := c.palette.filter (fun e => decide (e.ref_count ≠ 0))
    let id_size := idSize palette.length
    let ids ← mapE c.block_at_index (List.range BLOCKS_PER_CHUNK)
    .ok ⟨palette, packGo id_size ids 0 0, false⟩

/-- One id extracted from a qword by the unpacking loop, then split into its
raw bytes: one byte (`id as u8`), or little-endian low and high bytes when the
palette demands double width. -/
def splitBytes (double_bytes : Bool) (id : Nat) : List Nat :=
  if double_bytes then [id % 256, (id >>> 8) % 256] else [id % 256]

/-- The `while qword_index < block_data.len()` loop of `Into<ChunkData> for
PackedChunkData`: repeatedly extracts `s0 + 1` bits at the bit pointer from
the current qword (`((mask << bp) & qw) >> bp`, with the `u64` truncation of
the shifted mask), emits the id's bytes, and advances to the next qword once
the bit pointer reaches 64.  The bit width is passed as `s0 + 1` because the
source's `id_size` is always at least 1 (it is clamped with `.max(1)`), and a
zero width would make the source loop diverge. -/
def unpackGo (s0 : Nat) (double_bytes : Bool) :
    List Nat → Nat → List Nat
  | [], _ => []
  | qw :: qws, bp =>
    let s := s0 + 1
    let mask := 2 ^ s - 1
    let id := (((mask <<< bp) % 2 ^ 64) &&& qw) >>> bp
    let bytes := splitBytes double_bytes id
    if 64 ≤ bp + s then bytes ++ unpackGo s0 double_bytes qws 0
    else bytes ++ unpackGo s0 double_bytes (qw :: qws) (bp + s)
termination_by l bp => (l.length, 64 - bp)
decreasing_by
  all_goals simp_wf
  · omega
  · omega

/-- Mirrors `Into<ChunkData> for PackedChunkData`: single-mode data is
validated (palette length 1, full ref count) and rebuilt with an empty cell
array; dense data is unpacked with `unpackGo` at the bit width `idSize` of
the stored palette, re-deriving `double_bytes` from the palette length, and
the final `assert_eq!` on the unpacked length is checked. -/
def unpackChunk (p : PackedChunkData) : Except GErr ChunkData := do
  if p.is_single then
    if p.palette.length ≠ 1 then
      .error (.fatal "Malformed saved chunk data: single but palette length is not 1")
    else if (p.palette.getD 0 (PaletteEntry.new ⟨"", []⟩)).ref_count ≠ BLOCKS_PER_CHUNK then
      .error (.fatal "Malformed saved chunk data: single must have full refcount")
    else
      .ok ⟨[p.palette.getD 0 (PaletteEntry.new ⟨"", []⟩)], [], true, false⟩
  else do
    let id_size := idSize p.palette.length
    let double_bytes := decide (256 < p.palette.length)
    let vec_size := if double_bytes then DOUBLE_BLOCKS_PER_CHUNK else BLOCKS_PER_CHUNK
    let unpacked := unpackGo (id_size - 1) double_bytes p.block_data 0
    if unpacked.length ≠ vec_size then
      .error (.fatal "assertion failed: unpacked length")
    else
      .ok ⟨p.palette, unpacked, false, double_bytes⟩

/-- Concrete air block state used in the concrete theorems. -/
def airState : BlockState := ⟨"air", []⟩

/-- Concrete stone block state used in the concrete theorems. -/
def stoneState : BlockState := ⟨"stone", []⟩

/-- Concrete dirt block state used in the concrete theorems. -/
def dirtState : BlockState := ⟨"dirt", []⟩

/-- C1: the claim states that one `set_block` on a fresh `single("air")` chunk
succeeds at every in-bounds coordinate and materialises dense storage of
`BLOCKS_PER_CHUNK` cells.  The code instead materialises only `CHUNK_SIZE`
(32) cells (`self.data = vec![0; Self::CHUNK_SIZE]` in
`ChunkData::set_block`), so the very first differing write at coordinate
(0,1,0) — linear index 1024 — panics with an index-out-of-bounds error, and
the transition helper demonstrably allocates a 32-byte array. -/
theorem c1_single_transition_allocates_32_bytes :
    (ChunkData.single airState).set_block 0 1 0 stoneState =
      .error (.fatal oobMsg) ∧
    ((ChunkData.single airState).materialize_single).map
      (fun c => c.data.length) = .ok CHUNK_SIZE ∧
    CHUNK_SIZE ≠ BLOCKS_PER_CHUNK := by decide

/-- C2: the claim states the ref-count invariant holds after construction by
`single`; but `ChunkData::single` builds its lone palette entry through
`PaletteEntry::new`, which sets `ref_count = 0`, not `BLOCKS_PER_CHUNK`.
The code's own packed conversion declares exactly this state "malformed" and
panics on it. -/
theorem c2_single_violates_refcount_invariant :
    (ChunkData.single airState).palette = [⟨0, airState⟩] ∧
    (0 : Nat) ≠ BLOCKS_PER_CHUNK ∧
    packChunk (ChunkData.single airState) =
      .error (.fatal "Malformed ChunkData: single must have full refcount") := by
  decide

/-- C7 counterexample: at coordinate (32,0,0) the claim says `block_at` fails
with the `OutOfBounds` error; the code's `block_at` panics instead
(`panic!("point ... is out of bounds!")`), which is not the recoverable
`OutOfBounds` `ChunkError` value. -/
theorem c7_counterexample :
    (ChunkData.single airState).block_at 32 0 0 =
      .error (.fatal "point is out of bounds") ∧
    ∀ p : IVec3,
      (Except.error (GErr.fatal "point is out of bounds") : Except GErr Nat) ≠
        .error (.outOfBounds p) := by
  refine ⟨by decide, fun p h => ?_⟩
  cases h

/-- C7 (amended): for any coordinate with a component at least 32, `block_at`
fails by panicking with its out-of-bounds panic, while `set_block` (and
`get_block`) fail with the recoverable `OutOfBounds` error; in every case the
failure is returned before any state is constructed, so the palette and the
cell array are unchanged. -/
theorem c7_out_of_bounds (c : ChunkData) (x y z : Nat) (s : BlockState)
    (h : CHUNK_SIZE ≤ x ∨ CHUNK_SIZE ≤ y ∨ CHUNK_SIZE ≤ z) :
    c.block_at x y z = .error (.fatal "point is out of bounds") ∧
    c.set_block x y z s =
      .error (.outOfBounds (ivec3 (usizeToI32 x) (usizeToI32 y) (usizeToI32 z))) ∧
    c.get_block x y z =
      .error (.outOfBounds (ivec3 (usizeToI32 x) (usizeToI32 y) (usizeToI32 z))) := by
  refine ⟨?_, ?_, ?_⟩
  · unfold ChunkData.block_at
    rw [if_pos h]
  · unfold ChunkData.set_block
    rw [if_pos h]
  · unfold ChunkData.get_block
    rw [if_pos h]

/-- C7 witness: the amended theorem applied at coordinate (32,0,0) of a fresh
single air chunk. -/
theorem c7_out_of_bounds_witness :
    (CHUNK_SIZE ≤ 32 ∨ CHUNK_SIZE ≤ 0 ∨ CHUNK_SIZE ≤ 0) ∧
    (ChunkData.single airState).set_block 32 0 0 stoneState =
      .error (.outOfBounds (ivec3 (usizeToI32 32) (usizeToI32 0) (usizeToI32 0))) :=
  ⟨by decide, (c7_out_of_bounds (ChunkData.single airState) 32 0 0 stoneState
    (by decide)).2.1⟩

/-- Integers of magnitude at most `2^24` are exactly representable in `f32`,
so the rounding step of `as_vec3()` is the identity there. -/
theorem roundF32_eq_self (p : Int) (h : p.natAbs ≤ 2 ^ 24) : roundF32 p = p := by
  unfold roundF32
  rw [if_pos h]

/-- C8 counterexample: at world position `x = 33554431` (which is `2^25 - 1`,
not representable in `f32`), the float-based conversion rounds the coordinate
up to `2^25` before dividing, so `pos_to_chunk_pos` reports chunk 1048576
while floor division gives 1048575, and the resulting local coordinate is -1,
outside `[0, 32)`. -/
theorem c8_counterexample :
    pos_to_chunk_pos (ivec3 33554431 0 0) = ivec3 1048576 0 0 ∧
    Int.fdiv 33554431 32 = 1048575 ∧
    pos_to_chunk_local (ivec3 33554431 0 0) = ivec3 (-1) 0 0 := by
  decide

/-- C8 (amended): for world positions whose components all have magnitude at
most `2^24` (exactly representable in `f32`), `pos_to_chunk_pos` is the
componentwise floor division by 32 and `pos_to_chunk_local` is the remainder
`p - 32 * chunk`, each component lying in `[0, 32)`. -/
theorem c8_conversions (p : IVec3)
    (hx : p.x.natAbs ≤ 2 ^ 24) (hy : p.y.natAbs ≤ 2 ^ 24)
    (hz : p.z.natAbs ≤ 2 ^ 24) :
    pos_to_chunk_pos p =
      ivec3 (Int.fdiv p.x 32) (Int.fdiv p.y 32) (Int.fdiv p.z 32) ∧
    pos_to_chunk_local p =
      ivec3 (p.x - 32 * Int.fdiv p.x 32) (p.y - 32 * Int.fdiv p.y 32)
        (p.z - 32 * Int.fdiv p.z 32) ∧
    (0 ≤ (pos_to_chunk_local p).x ∧ (pos_to_chunk_local p).x < 32) ∧
    (0 ≤ (pos_to_chunk_local p).y ∧ (pos_to_chunk_local p).y < 32) ∧
    (0 ≤ (pos_to_chunk_local p).z ∧ (pos_to_chunk_local p).z < 32) := by
  have ax : pos_to_chunk_pos_axis p.x = Int.fdiv p.x 32 := by
    unfold pos_to_chunk_pos_axis; rw [roundF32_eq_self _ hx]
  have ay : pos_to_chunk_pos_axis p.y = Int.fdiv p.y 32 := by
    unfold pos_to_chunk_pos_axis; rw [roundF32_eq_self _ hy]
  have az : pos_to_chunk_pos_axis p.z = Int.fdiv p.z 32 := by
    unfold pos_to_chunk_pos_axis; rw [roundF32_eq_self _ hz]
  have hrange : ∀ q : Int, 0 ≤ q - 32 * Int.fdiv q 32 ∧ q - 32 * Int.fdiv q 32 < 32 := by
    intro q
    have h1 := Int.fdiv_add_fmod q 32
    have h2 := @Int.fmod_nonneg' q 32 (by norm_num)
    have h3 := @Int.fmod_lt_of_pos q 32 (by norm_num)
    omega
  constructor
  · unfold pos_to_chunk_pos; rw [ax, ay, az]
  constructor
  · unfold pos_to_chunk_local pos_to_chunk_pos_axis
    rw [roundF32_eq_self _ hx, roundF32_eq_self _ hy, roundF32_eq_self _ hz]
    show ivec3 (p.x - 32 * Int.fdiv p.x 32) (p.y - 32 * Int.fdiv p.y 32)
        (p.z - 32 * Int.fdiv p.z 32) = _
    rfl
  · unfold pos_to_chunk_local pos_to_chunk_pos_axis
    rw [roundF32_eq_self _ hx, roundF32_eq_self _ hy, roundF32_eq_self _ hz]
    exact ⟨hrange p.x, hrange p.y, hrange p.z⟩

/-- C8 witness: the amended theorem applied at the position (-33, 5, 64). -/
theorem c8_conversions_witness :
    ((-33 : Int).natAbs ≤ 2 ^ 24 ∧ (5 : Int).natAbs ≤ 2 ^ 24 ∧
      (64 : Int).natAbs ≤ 2 ^ 24) ∧
    pos_to_chunk_pos (ivec3 (-33) 5 64) =
      ivec3 (Int.fdiv (-33) 32) (Int.fdiv 5 32) (Int.fdiv 64 32) :=
  ⟨by decide, (c8_conversions (ivec3 (-33) 5 64) (by decide) (by decide)
    (by decide)).1⟩

/-- Inversion principle for a successful `Except` bind. -/
theorem exceptBind_ok {ε α β : Type} (x : Except ε α) (f : α → Except ε β)
    (b : β) : (x >>= f) = .ok b ↔ ∃ a, x = .ok a ∧ f a = .ok b := by
  cases x with
  | ok a => simp [Bind.bind, Except.bind]
  | error e => simp [Bind.bind, Except.bind]

/-- The block state stored at palette slot 0, when the palette is nonempty. -/
def headBlock (l : List PaletteEntry) : Option BlockState :=
  (l.get? 0).map PaletteEntry.block

/-- Writing at a nonzero index leaves slot 0 untouched. -/
theorem headBlock_set_ne (l : List PaletteEntry) (i : Nat) (e : PaletteEntry)
    (h : i ≠ 0) : headBlock (l.set i e) = headBlock l := by
  unfold headBlock
  rw [List.get?_set_ne e l (by omega)]

/-- Writing an entry with an unchanged block field leaves `headBlock`
unchanged at any index. -/
theorem headBlock_set_sameBlock (l : List PaletteEntry) (i : Nat)
    (p : PaletteEntry) (n : Nat) (h : l.get? i = some p) :
    headBlock (l.set i { p with ref_count := n }) = headBlock l := by
  rcases Nat.eq_zero_or_pos i with hi | hi
  · subst hi
    unfold headBlock
    have hlen : 0 < l.length := (List.get?_eq_some.mp h).1
    rw [List.get?_set_eq_of_lt _ hlen, h]
    rfl
  · exact headBlock_set_ne l i _ (by omega)

/-- Appending never changes slot 0 of a nonempty palette. -/
theorem headBlock_append (l : List PaletteEntry) (e : PaletteEntry)
    (h : 0 < l.length) : headBlock (l ++ [e]) = headBlock l := by
  unfold headBlock
  rw [List.get?_append h]

/-- C10 helper: `first_free_palette` only produces indices at least 1 (its
scan starts at index 1 by construction). -/
theorem first_free_palette_ge_one (c : ChunkData) (i : Nat)
    (h : c.first_free_palette = some i) : 1 ≤ i := by
  unfold ChunkData.first_free_palette at h
  split at h
  · cases h
  · have := List.mem_of_find?_eq_some h
    rw [List.mem_range'_1] at this
    exact this.1

/-- C10 helper: `add_palette` never changes the block stored at palette slot 0
of a nonempty palette (matching entries leave the palette untouched, recycling
only targets indices at least 1, and appending — with or without the
`grow_data` re-encoding — preserves existing slots). -/
theorem add_palette_headBlock (c : ChunkData) (e : PaletteEntry) (i : Nat)
    (c' : ChunkData) (hne : 0 < c.palette.length)
    (h : c.add_palette e = .ok (i, c')) :
    headBlock c'.palette = headBlock c.palette := by
  unfold ChunkData.add_palette at h
  split at h
  · rename_i j hj
    cases h
    rfl
  · split at h
    · rename_i j hj
      simp only [Except.ok.injEq, Prod.mk.injEq] at h
      obtain ⟨h1, h2⟩ := h
      subst h2
      exact headBlock_set_ne _ _ _ (by have := first_free_palette_ge_one c j hj; omega)
    · split at h
      · rw [exceptBind_ok] at h
        obtain ⟨c2, hc2, h⟩ := h
        have hpal : c2.palette = c.palette := by
          unfold ChunkData.grow_data at hc2
          split at hc2
          · cases hc2
          · rw [exceptBind_ok] at hc2
            obtain ⟨bs, _, hc2⟩ := hc2
            cases hc2
            rfl
        injection h with hpair
        injection hpair with hfst hsnd
        subst hsnd
        show headBlock (c2.palette ++ [e]) = headBlock c.palette
        rw [hpal]
        exact headBlock_append _ _ hne
      · injection h with hpair
        injection hpair with hfst hsnd
        subst hsnd
        show headBlock (c.palette ++ [e]) = headBlock c.palette
        exact headBlock_append _ _ hne

/-- The raw-cell writer never touches the palette. -/
theorem set_raw_palette (c : ChunkData) (index block_id : Nat)
    (c' : ChunkData) (h : c.set_raw index block_id = .ok c') :
    c'.palette = c.palette := by
  unfold ChunkData.set_raw at h
  split at h
  · cases h
  · split at h
    · split at h
      · cases h
        rfl
      · cases h
    · split at h
      · cases h
        rfl
      · cases h

/-- The single-to-dense transition only rewrites slot 0's reference count,
leaving its block state unchanged. -/
theorem materialize_headBlock (c : ChunkData) (c' : ChunkData)
    (h : c.materialize_single = .ok c') :
    headBlock c'.palette = headBlock c.palette := by
  unfold ChunkData.materialize_single at h
  rw [exceptBind_ok] at h
  obtain ⟨e0, he0, h⟩ := h
  cases h
  exact headBlock_set_sameBlock _ _ _ _ (by
    cases hg : c.palette.get? 0 with
    | none => rw [hg] at he0; cases he0
    | some v => rw [hg] at he0; cases he0; rfl)

/-- C10 helper: the dense write path never changes the block stored at
palette slot 0 (reference counts at slot 0 may change, its block may not). -/
theorem set_block_dense_headBlock (c : ChunkData) (index old_block : Nat)
    (b : BlockState) (c' : ChunkData) (old : BlockState)
    (h : c.set_block_dense index old_block b = .ok (c', old)) :
    headBlock c'.palette = headBlock c.palette := by
  unfold ChunkData.set_block_dense at h
  rw [exceptBind_ok] at h
  obtain ⟨p, hp, h⟩ := h
  have hp' : c.palette.get? old_block = some p := by
    cases hg : c.palette.get? old_block with
    | none => rw [hg] at hp; cases hp
    | some v => rw [hg] at hp; cases hp; rfl
  have hlen : 0 < c.palette.length := by
    have := (List.get?_eq_some.mp hp').1
    omega
  split at h
  · cases h
  · simp only [] at h
    set c1 : ChunkData :=
      { c with palette := c.palette.set old_block { p with ref_count := p.ref_count - 1 } }
      with hc1def
    have hh1 : headBlock c1.palette = headBlock c.palette :=
      headBlock_set_sameBlock _ _ _ _ hp'
    split at h
    · rename_i j hj
      rw [exceptBind_ok] at h
      obtain ⟨pj, hpj, h⟩ := h
      have hpj' : c1.palette.get? j = some pj := by
        cases hg : c1.palette.get? j with
        | none => rw [hg] at hpj; cases hpj
        | some v => rw [hg] at hpj; cases hpj; rfl
      rw [exceptBind_ok] at h
      obtain ⟨c3, hc3, h⟩ := h
      cases h
      rw [set_raw_palette _ _ _ _ hc3]
      show headBlock (c1.palette.set j { pj with ref_count := pj.ref_count + 1 }) =
        headBlock c.palette
      exact (headBlock_set_sameBlock _ _ _ _ hpj').trans hh1
    · rw [exceptBind_ok] at h
      obtain ⟨bc, hbc, h⟩ := h
      obtain ⟨block_id, c2⟩ := bc
      have hh2 : headBlock c2.palette = headBlock c1.palette :=
        add_palette_headBlock _ _ _ _ (by
          have : c1.palette.length = c.palette.length := by
            rw [hc1def]
            exact List.length_set _ _ _
          omega) hbc
      rw [exceptBind_ok] at h
      obtain ⟨pb, hpb, h⟩ := h
      have hpb' : c2.palette.get? block_id = some pb := by
        cases hg : c2.palette.get? block_id with
        | none => rw [hg] at hpb; cases hpb
        | some v => rw [hg] at hpb; cases hpb; rfl
      rw [exceptBind_ok] at h
      obtain ⟨c3, hc3, h⟩ := h
      cases h
      rw [set_raw_palette _ _ _ _ hc3]
      show headBlock (c2.palette.set block_id { pb with ref_count := pb.ref_count + 1 }) =
        headBlock c.palette
      exact (headBlock_set_sameBlock _ _ _ _ hpb').trans (hh2.trans hh1)

/-- C10 helper: a successful `set_block` never changes the block stored at
palette slot 0. -/
theorem set_block_headBlock (c : ChunkData) (x y z : Nat) (b : BlockState)
    (c' : ChunkData) (old : BlockState)
    (h : c.set_block x y z b = .ok (c', old)) :
    headBlock c'.palette = headBlock c.palette := by
  unfold ChunkData.set_block at h
  split at h
  · cases h
  · rw [exceptBind_ok] at h
    obtain ⟨ob, hob, h⟩ := h
    rw [exceptBind_ok] at h
    obtain ⟨oe, hoe, h⟩ := h
    split at h
    · cases h
      rfl
    · rw [exceptBind_ok] at h
      obtain ⟨c1, hc1, h⟩ := h
      have hhead1 : headBlock c1.palette = headBlock c.palette := by
        split at hc1
        · exact materialize_headBlock _ _ hc1
        · cases hc1
          rfl
      calc headBlock c'.palette
          = headBlock c1.palette := set_block_dense_headBlock _ _ _ _ _ _ h
        _ = headBlock c.palette := hhead1


/-- C10: palette slot 0 is never recycled.  `first_free_palette` only returns
indices at least 1, and neither `add_palette` (on a nonempty palette) nor a
successful `set_block` ever replaces the block state stored at palette slot
0, even when that slot's reference count is 0. -/
theorem c10_slot_zero_never_recycled :
    (∀ (c : ChunkData) (i : Nat), c.first_free_palette = some i → 1 ≤ i) ∧
    (∀ (c : ChunkData) (e : PaletteEntry) (i : Nat) (c' : ChunkData),
      0 < c.palette.length → c.add_palette e = .ok (i, c') →
      headBlock c'.palette = headBlock c.palette) ∧
    (∀ (c : ChunkData) (x y z : Nat) (b : BlockState) (c' : ChunkData)
      (old : BlockState), c.set_block x y z b = .ok (c', old) →
      headBlock c'.palette = headBlock c.palette) :=
  ⟨first_free_palette_ge_one,
   fun c e i c' hlen h => add_palette_headBlock c e i c' hlen h,
   fun c x y z b c' old h => set_block_headBlock c x y z b c' old h⟩

/-- Concrete chunk with a free palette slot at index 1, used by the C10
witness. -/
def c10Chunk : ChunkData := ⟨[⟨1, airState⟩, ⟨0, stoneState⟩], [], false, false⟩

/-- Result of the C10 witness `add_palette` run: slot 1 recycled. -/
def c10ChunkB : ChunkData := ⟨[⟨1, airState⟩, ⟨0, dirtState⟩], [], false, false⟩

/-- Concrete result chunk of the C10 witness `set_block` run. -/
def c10Chunk' : ChunkData :=
  ⟨[⟨32767, airState⟩, ⟨1, stoneState⟩], (List.replicate CHUNK_SIZE 0).set 5 1,
    false, false⟩

/-- C10 witness: the three conjuncts applied to concrete chunks — a palette
with a free slot at index 1, an `add_palette` insertion on a two-entry
palette, and a successful `set_block` on a fresh single air chunk (which
writes cell (0,0,5), within the 32 cells the buggy transition allocates). -/
theorem c10_slot_zero_never_recycled_witness :
    (c10Chunk.first_free_palette = some 1 ∧ 1 ≤ 1) ∧
    (0 < c10Chunk.palette.length ∧
      c10Chunk.add_palette (PaletteEntry.new dirtState) = .ok (1, c10ChunkB) ∧
      headBlock c10ChunkB.palette = headBlock c10Chunk.palette) ∧
    ((ChunkData.single airState).set_block 0 0 5 stoneState =
        .ok (c10Chunk', airState) ∧
      headBlock c10Chunk'.palette =
        headBlock (ChunkData.single airState).palette) := by
  refine ⟨⟨by decide, c10_slot_zero_never_recycled.1 c10Chunk 1 (by decide)⟩, ?_, ?_⟩
  · refine ⟨by decide, by decide, ?_⟩
    exact c10_slot_zero_never_recycled.2.1 c10Chunk (PaletteEntry.new dirtState)
      1 c10ChunkB (by decide) (by decide)
  · refine ⟨by decide, ?_⟩
    exact c10_slot_zero_never_recycled.2.2 _ 0 0 5 stoneState _ airState (by decide)

/-- Reading every index of a list in order through the panicking accessor
reproduces the list. -/
theorem mapE_get_range' {α : Type} (msg : String) (l pre : List α) :
    mapE (fun i => liftO msg ((pre ++ l).get? i))
      (List.range' pre.length l.length) = .ok l := by
  induction l generalizing pre with
  | nil => rfl
  | cons a t ih =>
    rw [List.length_cons, List.range'_succ]
    show (do
      let b ← liftO msg ((pre ++ a :: t).get? pre.length)
      let bs ← mapE (fun i => liftO msg ((pre ++ a :: t).get? i))
        (List.range' (pre.length + 1) t.length)
      Except.ok (b :: bs)) = .ok (a :: t)
    have h1 : (pre ++ a :: t).get? pre.length = some a := by
      rw [List.get?_append_right (Nat.le_refl _)]
      simp
    have h2 : pre ++ a :: t = (pre ++ [a]) ++ t := by simp
    have h3 : pre.length + 1 = (pre ++ [a]).length := by simp
    rw [h1, h2, h3]
    have := ih (pre ++ [a])
    rw [this]
    rfl

/-- Reading indices `0..l.length` through the panicking accessor yields `l`. -/
theorem mapE_get_range {α : Type} (msg : String) (l : List α) :
    mapE (fun i => liftO msg (l.get? i)) (List.range l.length) = .ok l := by
  have := mapE_get_range' msg l []
  simpa [List.range_eq_range'] using this

/-- Even positions of the byte-interleaved list are the original bytes. -/
theorem flatMap_pair_get_even (l : List Nat) (i : Nat) :
    (l.flatMap fun b => [b, 0]).get? (i * 2) = l.get? i := by
  induction l generalizing i with
  | nil => rfl
  | cons a t ih =>
    cases i with
    | zero => rfl
    | succ j =>
      have harith : (j + 1) * 2 = j * 2 + 2 := by ring
      rw [harith]
      show (a :: 0 :: t.flatMap fun b => [b, 0]).get? (j * 2 + 2) = (a :: t).get? (j + 1)
      show (t.flatMap fun b => [b, 0]).get? (j * 2) = t.get? j
      exact ih j

/-- Odd positions of the byte-interleaved list are the zero high bytes. -/
theorem flatMap_pair_get_odd (l : List Nat) (i : Nat) (h : i < l.length) :
    (l.flatMap fun b => [b, 0]).get? (i * 2 + 1) = some 0 := by
  induction l generalizing i with
  | nil => cases h
  | cons a t ih =>
    cases i with
    | zero => rfl
    | succ j =>
      have harith : (j + 1) * 2 + 1 = j * 2 + 3 := by ring
      rw [harith]
      show (a :: 0 :: t.flatMap fun b => [b, 0]).get? (j * 2 + 3) = some 0
      show (t.flatMap fun b => [b, 0]).get? (j * 2 + 1) = some 0
      exact ih j (by simpa using h)

/-- C5 helper: a successful `grow_data` run on a well-sized one-byte chunk
interleaves zero high bytes and flips the width flag. -/
theorem grow_data_ok (c : ChunkData) (hdb : c.double_bytes = false)
    (hlen : c.data.length = BLOCKS_PER_CHUNK) :
    c.grow_data =
      .ok ⟨c.palette, c.data.flatMap (fun b => [b, 0]), c.is_single, true⟩ := by
  unfold ChunkData.grow_data
  rw [hdb]
  simp only [Bool.false_eq_true, if_false]
  rw [← hlen, mapE_get_range]
  rfl

/-- C5: inserting a 257th distinct entry through `add_palette` into a
one-byte chunk whose palette holds 256 entries (none equal to the new entry,
no recyclable free slot at index 1 or above) triggers the width growth: the
result is double-width, the entry lands at index 256, and every cell's
decoded palette index is unchanged by the re-encoding pass. -/
theorem c5_width_growth (c : ChunkData) (entry : PaletteEntry)
    (hsingle : c.is_single = false)
    (hdb : c.double_bytes = false)
    (hpal : c.palette.length = 256)
    (hfree : c.first_free_palette = none)
    (hmem : ∀ e ∈ c.palette, ¬e = entry)
    (hlen : c.data.length = BLOCKS_PER_CHUNK) :
    ∃ c', c.add_palette entry = .ok (256, c') ∧
      c'.double_bytes = true ∧
      c'.palette = c.palette ++ [entry] ∧
      ∀ i, i < BLOCKS_PER_CHUNK → c'.block_at_index i = c.block_at_index i := by
  have hfind : c.palette.findIdx? (fun p => p == entry) = none := by
    rw [List.findIdx?_eq_none_iff]
    intro x hx
    exact beq_eq_false_iff_ne.mpr (hmem x hx)
  refine ⟨⟨c.palette ++ [entry], c.data.flatMap (fun b => [b, 0]),
    c.is_single, true⟩, ?_, rfl, rfl, ?_⟩
  · unfold ChunkData.add_palette
    rw [hfind, hfree]
    simp only [if_pos hpal, grow_data_ok c hdb hlen]
    show Except.ok (c.palette.length, _) = _
    rw [hpal]
  · intro i hi
    unfold ChunkData.block_at_index
    rw [hsingle, hdb]
    simp only [Bool.false_eq_true, if_false]
    have hv : ∃ v, c.data.get? i = some v := by
      cases hg : c.data.get? i with
      | some v => exact ⟨v, rfl⟩
      | none =>
        have := List.get?_eq_none.mp hg
        omega
    obtain ⟨v, hv⟩ := hv
    rw [flatMap_pair_get_odd c.data i (by omega), flatMap_pair_get_even, hv]
    show Except.ok ((0 <<< 8) ||| v) = liftO oobMsg (some v)
    simp [liftO, Nat.zero_shiftLeft]

/-- Concrete one-byte chunk with a full 256-entry palette, used by the C5
witness. -/
def c5Chunk : ChunkData :=
  ⟨List.replicate 256 ⟨1, stoneState⟩, List.replicate BLOCKS_PER_CHUNK 0,
    false, false⟩

/-- C5 witness: the width-growth theorem applied to the concrete 256-entry
chunk and a fresh dirt palette entry. -/
theorem c5_width_growth_witness :
    (c5Chunk.is_single = false ∧ c5Chunk.double_bytes = false ∧
      c5Chunk.palette.length = 256 ∧ c5Chunk.first_free_palette = none ∧
      c5Chunk.data.length = BLOCKS_PER_CHUNK) ∧
    ∃ c', c5Chunk.add_palette (PaletteEntry.new dirtState) = .ok (256, c') ∧
      c'.double_bytes = true ∧
      c'.palette = c5Chunk.palette ++ [PaletteEntry.new dirtState] ∧
      ∀ i, i < BLOCKS_PER_CHUNK →
        c'.block_at_index i = c5Chunk.block_at_index i :=
  have hpal : c5Chunk.palette.length = 256 := List.length_replicate 256 _
  have hlen : c5Chunk.data.length = BLOCKS_PER_CHUNK :=
    List.length_replicate BLOCKS_PER_CHUNK _
  have hmem : ∀ e ∈ c5Chunk.palette, ¬e = PaletteEntry.new dirtState := by
    intro e he
    have he' : e ∈ List.replicate 256 (⟨1, stoneState⟩ : PaletteEntry) := he
    rw [List.mem_replicate] at he'
    rw [he'.2]
    decide
  ⟨⟨rfl, rfl, hpal, by decide, hlen⟩,
   c5_width_growth c5Chunk (PaletteEntry.new dirtState) rfl rfl
     hpal (by decide) hmem hlen⟩

/-- The meshes actually uploaded from a queue segment: the `Some` entries, in
order. -/
def someMeshes : List (IVec3 × Option MeshV) → List (IVec3 × MeshV)
  | [] => []
  | (_, none) :: rest => someMeshes rest
  | (c, some m) :: rest => (c, m) :: someMeshes rest

/-- Budget consumed by a queue segment: the sum of the `as i32`-cast
vertex-buffer sizes of its `Some` meshes. -/
def uploadSizes : List (IVec3 × Option MeshV) → Int
  | [] => 0
  | (_, none) :: rest => uploadSizes rest
  | (_, some m) :: rest => usizeToI32 m.vertex_buffer_size + uploadSizes rest

/-- Characterisation of the upload loop: it consumes exactly the shortest
queue prefix whose uploaded sizes reach the budget (or the whole queue),
uploads that prefix's `Some` meshes in FIFO order, and leaves the suffix. -/
theorem uploadLoop_spec (present : IVec3 → Bool)
    (q : List (IVec3 × Option MeshV)) (b : Int)
    (hpres : ∀ p m, (p, some m) ∈ q → present p = true) :
    ∃ k, k ≤ q.length ∧
      uploadLoop present q b = .ok (someMeshes (q.take k), q.drop k) ∧
      (∀ j, j < k → uploadSizes (q.take j) < b) ∧
      (k = q.length ∨ b ≤ uploadSizes (q.take k)) := by
  induction q generalizing b with
  | nil => exact ⟨0, by omega, rfl, fun j hj => absurd hj (by omega), .inl rfl⟩
  | cons hd rest ih =>
    by_cases hb : b ≤ 0
    · refine ⟨0, by omega, ?_, fun j hj => absurd hj (by omega), .inr (by
        show b ≤ uploadSizes []
        show b ≤ 0
        exact hb)⟩
      obtain ⟨c, m⟩ := hd
      show uploadLoop present ((c, m) :: rest) b = .ok ([], (c, m) :: rest)
      unfold uploadLoop
      rw [if_pos hb]
    · obtain ⟨c, m⟩ := hd
      cases m with
      | none =>
        obtain ⟨k, hk, heval, hlt, hend⟩ := ih b
          (fun p m hm => hpres p m (List.mem_cons_of_mem _ hm))
        refine ⟨k + 1, by simpa using hk, ?_, ?_, ?_⟩
        · show uploadLoop present ((c, none) :: rest) b =
            .ok (someMeshes (rest.take k), rest.drop k)
          unfold uploadLoop
          rw [if_neg hb]
          exact heval
        · intro j hj
          cases j with
          | zero =>
            show uploadSizes [] < b
            show (0 : Int) < b
            omega
          | succ j' =>
            show uploadSizes ((c, none) :: rest.take j') < b
            show uploadSizes (rest.take j') < b
            exact hlt j' (by omega)
        · rcases hend with h | h
          · exact .inl (by simp [h])
          · exact .inr (by
              show b ≤ uploadSizes ((c, none) :: rest.take k)
              show b ≤ uploadSizes (rest.take k)
              exact h)
      | some mesh =>
        have hpc : present c = true := hpres c mesh (List.mem_cons_self _ _)
        obtain ⟨k, hk, heval, hlt, hend⟩ :=
          ih (b - usizeToI32 mesh.vertex_buffer_size)
          (fun p m hm => hpres p m (List.mem_cons_of_mem _ hm))
        refine ⟨k + 1, by simpa using hk, ?_, ?_, ?_⟩
        · show uploadLoop present ((c, some mesh) :: rest) b =
            .ok ((c, mesh) :: someMeshes (rest.take k), rest.drop k)
          unfold uploadLoop
          rw [if_neg hb]
          show (if present c = true then
              (uploadLoop present rest (b - usizeToI32 mesh.vertex_buffer_size)) >>=
                (fun d => Except.ok ((c, mesh) :: d.1, d.2))
            else Except.error (.fatal "Cannot remesh chunk that is not in memory")) = _
          rw [if_pos hpc, heval]
          rfl
        · intro j hj
          cases j with
          | zero =>
            show (0 : Int) < b
            omega
          | succ j' =>
            show usizeToI32 mesh.vertex_buffer_size +
              uploadSizes (rest.take j') < b
            have := hlt j' (by omega)
            omega
        · rcases hend with h | h
          · exact .inl (by simp [h])
          · refine .inr ?_
            show b ≤ usizeToI32 mesh.vertex_buffer_size +
              uploadSizes (rest.take k)
            omega

/-- C6 counterexample: the claim asserts that whenever the queued meshes'
cumulative vertex-buffer size exceeds the 1 MiB budget, one run uploads a
strict prefix and leaves a nonempty remainder.  With two 600000-byte meshes
(cumulative 1200000 > 1048576), the loop pops and uploads the second mesh as
well — the budget is only checked before popping, not before uploading — and
the remainder is empty. -/
theorem c6_counterexample :
    ¬ (∀ (present : IVec3 → Bool) (q : List (IVec3 × Option MeshV)),
        (∀ p m, (p, some m) ∈ q → present p = true) →
        1024 * 1024 <
          (q.filterMap (fun pm => pm.2.map MeshV.vertex_buffer_size)).sum →
        ∃ up rem, upload_meshes present q = .ok (up, rem) ∧ rem ≠ []) := by
  intro h
  obtain ⟨up, rem, h1, h2⟩ := h (fun _ => true)
    [(ivec3 0 0 0, some ⟨600000⟩), (ivec3 0 0 1, some ⟨600000⟩)]
    (fun p m _ => rfl) (by decide)
  have heval : upload_meshes (fun _ => true)
      [(ivec3 0 0 0, some ⟨600000⟩), (ivec3 0 0 1, some ⟨600000⟩)] =
      .ok ([(ivec3 0 0 0, ⟨600000⟩), (ivec3 0 0 1, ⟨600000⟩)], []) := by decide
  rw [heval] at h1
  injection h1 with hpair
  injection hpair with hfst hsnd
  exact h2 hsnd.symm

/-- C6 (amended): one run of the upload stage consumes the shortest queue
prefix whose uploaded (cast `as i32`) vertex-buffer sizes reach the 1 MiB
budget — or the whole queue if none does — uploads exactly that prefix's
`Some` meshes in FIFO order (the budget check happens before popping, so the
final upload may overshoot the budget), discards its `None` entries without
uploading them or charging the budget, and leaves the suffix queued for the
next tick.  The remainder is therefore nonempty only when the budget is
reached strictly before the last queue entry. -/
theorem c6_upload_budget (present : IVec3 → Bool)
    (q : List (IVec3 × Option MeshV))
    (hpres : ∀ p m, (p, some m) ∈ q → present p = true) :
    ∃ k, k ≤ q.length ∧
      upload_meshes present q = .ok (someMeshes (q.take k), q.drop k) ∧
      (∀ j, j < k → uploadSizes (q.take j) < MIB_PER_FRAME) ∧
      (k = q.length ∨ MIB_PER_FRAME ≤ uploadSizes (q.take k)) :=
  uploadLoop_spec present q MIB_PER_FRAME hpres

/-- Concrete queue used by the C6 witness: its first mesh alone exhausts the
budget, so the remaining two entries stay queued. -/
def c6Queue : List (IVec3 × Option MeshV) :=
  [(ivec3 0 0 0, some ⟨2000000⟩), (ivec3 0 0 1, none), (ivec3 0 0 2, some ⟨9⟩)]

/-- C6 witness: the amended theorem applied to `c6Queue` under an
all-present chunk map. -/
theorem c6_upload_budget_witness :
    (∀ p m, (p, some m) ∈ c6Queue → (fun _ : IVec3 => true) p = true) ∧
    ∃ k, k ≤ c6Queue.length ∧
      upload_meshes (fun _ => true) c6Queue =
        .ok (someMeshes (c6Queue.take k), c6Queue.drop k) ∧
      (∀ j, j < k → uploadSizes (c6Queue.take j) < MIB_PER_FRAME) ∧
      (k = c6Queue.length ∨ MIB_PER_FRAME ≤ uploadSizes (c6Queue.take k)) :=
  ⟨fun p m _ => rfl,
    c6_upload_budget (fun _ => true) c6Queue (fun p m _ => rfl)⟩

/-- The fuel-driven floor base-2 logarithm never overshoots. -/
theorem log2Fuel_pow_le (fuel : Nat) : ∀ a : Nat, 1 ≤ a → 2 ^ log2Fuel fuel a ≤ a := by
  induction fuel with
  | zero =>
    intro a ha
    simpa [log2Fuel] using ha
  | succ f ih =>
    intro a ha
    rw [log2Fuel]
    split
    · next h2 =>
      have hdiv := ih (a / 2) (by omega)
      rw [Nat.pow_succ]
      omega
    · next => simpa using ha

/-- A signed value rebuilt from a magnitude keeps the magnitude's bound. -/
theorem sign_mul_natAbs_le (p : Int) (n : Nat) (h : n ≤ 2 * p.natAbs) :
    (p.sign * (n : Int)).natAbs ≤ 2 * p.natAbs := by
  rw [Int.natAbs_mul, Int.natAbs_ofNat]
  have hsign : p.sign.natAbs ≤ 1 := by
    rcases Int.lt_trichotomy p 0 with hl | he | hg
    · rw [Int.sign_eq_neg_one_of_neg hl]
      decide
    · rw [he]
      decide
    · rw [Int.sign_eq_one_of_pos hg]
      decide
  calc p.sign.natAbs * n ≤ 1 * n := Nat.mul_le_mul_right n hsign
    _ = n := Nat.one_mul n
    _ ≤ 2 * p.natAbs := h

/-- `f32` rounding at most doubles the magnitude of an integer. -/
theorem roundF32_natAbs_le (p : Int) : (roundF32 p).natAbs ≤ 2 * p.natAbs := by
  by_cases h : p.natAbs ≤ 2 ^ 24
  · rw [roundF32_eq_self p h]
    omega
  · simp only [roundF32]
    rw [if_neg h]
    apply sign_mul_natAbs_le
    have ha : 1 ≤ p.natAbs := by omega
    have hfl : 2 ^ (floorLog2 p.natAbs - 23) ≤ p.natAbs := by
      have h1 : 2 ^ floorLog2 p.natAbs ≤ p.natAbs :=
        log2Fuel_pow_le p.natAbs p.natAbs ha
      exact le_trans (Nat.pow_le_pow_right (by omega) (by omega)) h1
    have hdm : p.natAbs / 2 ^ (floorLog2 p.natAbs - 23) *
        2 ^ (floorLog2 p.natAbs - 23) ≤ p.natAbs := Nat.div_mul_le_self _ _
    split_ifs
    · exact le_trans hdm (by omega)
    · rw [Nat.two_mul]
      exact Nat.add_le_add hdm hfl
    · exact le_trans hdm (by omega)
    · rw [Nat.two_mul]
      exact Nat.add_le_add hdm hfl

/-- A wrapped `usize` cast landing below 32 forces the integer itself into
`[0, 32)`, for integers far from the wrap boundary. -/
theorem i32ToUsize_lt_32 (l : Int) (hb : l.natAbs ≤ 2 ^ 62)
    (h : i32ToUsize l < 32) : 0 ≤ l ∧ l < 32 := by
  unfold i32ToUsize at h
  omega

/-- One conversion axis after a successful in-bounds write: the wrapped local
coordinate being in range forces the exact local coordinate into `[0, 32)`
and the float-based chunk coordinate to agree with pure integer floor
division, for every coordinate in the `i32` domain of `IVec3`. -/
theorem local_axis_of_success (q : Int) (hq : q.natAbs ≤ 2 ^ 31)
    (hlt : i32ToUsize (q - 32 * pos_to_chunk_pos_axis q) < 32) :
    0 ≤ q - 32 * pos_to_chunk_pos_axis q ∧
    q - 32 * pos_to_chunk_pos_axis q < 32 ∧
    pos_to_chunk_pos_axis q = Int.fdiv q 32 := by
  have hr : (roundF32 q).natAbs ≤ 2 * q.natAbs := roundF32_natAbs_le q
  have hax : pos_to_chunk_pos_axis q = Int.fdiv (roundF32 q) 32 := rfl
  have h1 := Int.fdiv_add_fmod (roundF32 q) 32
  have h2 := @Int.fmod_nonneg' (roundF32 q) 32 (by norm_num)
  have h3 := @Int.fmod_lt_of_pos (roundF32 q) 32 (by norm_num)
  have hb : (q - 32 * pos_to_chunk_pos_axis q).natAbs ≤ 2 ^ 62 := by
    rw [hax]
    omega
  obtain ⟨hge, hlt2⟩ := i32ToUsize_lt_32 _ hb hlt
  have h4 := Int.fdiv_add_fmod q 32
  have h5 := @Int.fmod_nonneg' q 32 (by norm_num)
  have h6 := @Int.fmod_lt_of_pos q 32 (by norm_num)
  refine ⟨hge, hlt2, ?_⟩
  rw [hax] at hge hlt2 ⊢
  omega

/-- Bounds inversion for a successful chunk-data write: `ChunkData::set_block`
checks all three coordinates against `CHUNK_SIZE` before touching anything. -/
theorem set_block_ok_bounds (c : ChunkData) (x y z : Nat) (b : BlockState)
    (r : ChunkData × BlockState) (h : c.set_block x y z b = .ok r) :
    x < CHUNK_SIZE ∧ y < CHUNK_SIZE ∧ z < CHUNK_SIZE := by
  unfold ChunkData.set_block at h
  simp only [] at h
  split at h
  · cases h
  · rename_i hnb
    exact ⟨by omega, by omega, by omega⟩

/-- C9: after every successful `BlockWorld::set_block` at a world position
`p` in the `i32` domain of `IVec3` (the embedding models the source's `i32`
vector with unbounded `Int` components, so the hypothesis
`|component| ≤ 2^31` only restores the source type's own range and excludes
no real call), the triggered `SetBlockEvent` carries `p`, and the
spec-modelled remeshing trigger marks the chunk containing `p` (the integer
floor-division chunk) as needing remeshing, plus the face-adjacent neighbor
on every axis whose local coordinate is 0 or 31.  No exactness assumption on
the `f32` conversion is needed: success of the bounds-checked write forces
the computed local coordinate into `[0, 32)`, which forces the float-based
chunk coordinate to agree with pure integer floor division. -/
theorem c9_remesh_on_edit (map : IVec3 → Option Chunk) (p : IVec3)
    (b : BlockState) (res : BlockState) (ch : Chunk) (ev : SetBlockEvent)
    (hx : p.x.natAbs ≤ 2 ^ 31) (hy : p.y.natAbs ≤ 2 ^ 31)
    (hz : p.z.natAbs ≤ 2 ^ 31)
    (h : BlockWorld.set_block map p b = .ok (res, ch, ev)) :
    ev.pos = p ∧
    pos_to_chunk_pos p ∈ onSetBlockEvent ev ∧
    pos_to_chunk_pos p =
      ivec3 (Int.fdiv p.x 32) (Int.fdiv p.y 32) (Int.fdiv p.z 32) ∧
    ((pos_to_chunk_local p).x = 0 →
      pos_to_chunk_pos p + ivec3 (-1) 0 0 ∈ onSetBlockEvent ev) ∧
    ((pos_to_chunk_local p).x = 31 →
      pos_to_chunk_pos p + ivec3 1 0 0 ∈ onSetBlockEvent ev) ∧
    ((pos_to_chunk_local p).y = 0 →
      pos_to_chunk_pos p + ivec3 0 (-1) 0 ∈ onSetBlockEvent ev) ∧
    ((pos_to_chunk_local p).y = 31 →
      pos_to_chunk_pos p + ivec3 0 1 0 ∈ onSetBlockEvent ev) ∧
    ((pos_to_chunk_local p).z = 0 →
      pos_to_chunk_pos p + ivec3 0 0 (-1) ∈ onSetBlockEvent ev) ∧
    ((pos_to_chunk_local p).z = 31 →
      pos_to_chunk_pos p + ivec3 0 0 1 ∈ onSetBlockEvent ev) := by
  obtain ⟨hev, hbx, hby, hbz⟩ : ev.pos = p ∧
      i32ToUsize (pos_to_chunk_local p).x < CHUNK_SIZE ∧
      i32ToUsize (pos_to_chunk_local p).y < CHUNK_SIZE ∧
      i32ToUsize (pos_to_chunk_local p).z < CHUNK_SIZE := by
    unfold BlockWorld.set_block at h
    simp only [] at h
    split at h
    · cases h
    · rw [exceptBind_ok] at h
      obtain ⟨cr, hcr, h⟩ := h
      obtain ⟨ch2, res2⟩ := cr
      injection h with hpair
      injection hpair with h1 hpair
      injection hpair with h2 h3
      unfold Chunk.set_block at hcr
      simp only [] at hcr
      split at hcr
      · cases hcr
      · split at hcr
        · cases hcr
        · rw [exceptBind_ok] at hcr
          obtain ⟨dr, hdr, hrest⟩ := hcr
          obtain ⟨d2, old2⟩ := dr
          have hbounds := set_block_ok_bounds _ _ _ _ _ _ hdr
          exact ⟨by rw [← h3], hbounds.1, hbounds.2.1, hbounds.2.2⟩
  have lx := local_axis_of_success p.x hx hbx
  have ly := local_axis_of_success p.y hy hby
  have lz := local_axis_of_success p.z hz hbz
  refine ⟨hev, ?_, ?_, ?_, ?_, ?_, ?_, ?_, ?_⟩
  · simp only [onSetBlockEvent, hev]
    exact List.mem_cons_self _ _
  · show ivec3 (pos_to_chunk_pos_axis p.x) (pos_to_chunk_pos_axis p.y)
        (pos_to_chunk_pos_axis p.z) = _
    rw [lx.2.2, ly.2.2, lz.2.2]
  all_goals
    intro h0
    simp only [onSetBlockEvent, hev, h0]
    simp

/-- Concrete chunk at chunk position (1,0,0) used by the C9 witness. -/
def c9Chunk : Chunk :=
  ⟨ivec3 1 0 0, some (ChunkData.single airState), .generated⟩

/-- Concrete chunk map used by the C9 witness. -/
def c9Map : IVec3 → Option Chunk :=
  fun q => if q = ivec3 1 0 0 then some c9Chunk else none

/-- State of the C9 witness chunk after the edit at local (0,0,31). -/
def c9Chunk' : Chunk :=
  ⟨ivec3 1 0 0,
    some ⟨[⟨32767, airState⟩, ⟨1, stoneState⟩],
      (List.replicate CHUNK_SIZE 0).set 31 1, false, false⟩,
    .generated⟩

/-- Event triggered by the C9 witness edit. -/
def c9Ev : SetBlockEvent := ⟨ivec3 32 0 31, airState, stoneState⟩

/-- C9 witness: a successful world edit at position (32,0,31) — local
coordinate (0,0,31) of chunk (1,0,0) — marks chunk (1,0,0) and both the
west (x = 0 face) and north (z = 31 face) neighbors dirty. -/
theorem c9_remesh_on_edit_witness :
    ((ivec3 32 0 31).x.natAbs ≤ 2 ^ 31 ∧ (ivec3 32 0 31).y.natAbs ≤ 2 ^ 31 ∧
      (ivec3 32 0 31).z.natAbs ≤ 2 ^ 31) ∧
    (BlockWorld.set_block c9Map (ivec3 32 0 31) stoneState =
      .ok (airState, c9Chunk', c9Ev)) ∧
    c9Ev.pos = ivec3 32 0 31 ∧
    pos_to_chunk_pos (ivec3 32 0 31) ∈ onSetBlockEvent c9Ev ∧
    (pos_to_chunk_pos (ivec3 32 0 31) + ivec3 (-1) 0 0 ∈ onSetBlockEvent c9Ev) ∧
    (pos_to_chunk_pos (ivec3 32 0 31) + ivec3 0 0 1 ∈ onSetBlockEvent c9Ev) := by
  have hrun : BlockWorld.set_block c9Map (ivec3 32 0 31) stoneState =
      .ok (airState, c9Chunk', c9Ev) := by decide
  have hmain := c9_remesh_on_edit c9Map (ivec3 32 0 31) stoneState airState
    c9Chunk' c9Ev (by decide) (by decide) (by decide) hrun
  refine ⟨⟨by decide, by decide, by decide⟩, hrun, hmain.1, hmain.2.1, ?_, ?_⟩
  · exact hmain.2.2.2.1 (by decide)
  · exact hmain.2.2.2.2.2.2.2.2 (by decide)

/-- Block-face direction (`Direction` in `src/world/block.rs`). -/
inductive Direction where
  | up
  | down
  | north
  | south
  | east
  | west
deriving DecidableEq, Repr

/-- One renderable face of a block model (`FaceMinimal` in
`src/render/block.rs`).  Only the fields the culling logic reads are
modelled: the optional cull direction and the texture-array index; the
vertex/uv/normal payloads are `f32` geometry that the mesher copies through
untouched. -/
structure FaceMinimal where
  cull_mode : Option Direction
  texture_index : Nat
deriving DecidableEq, Repr

/-- A block model as used by the mesher (`BlockModelMinimal`): its face list
and the 6-bit mask of full (opaque, flush) sides. -/
structure BlockModelMinimal where
  faces : List FaceMinimal
  full_sides : Nat
deriving DecidableEq, Repr

/-- Mirrors `BlockModelMinimal::is_full` with the source's bit layout:
up bit 0, down bit 1, north bit 2, south bit 3, east bit 4, west bit 5. -/
def BlockModelMinimal.is_full (m : BlockModelMinimal) : Direction → Bool
  | .up => m.full_sides &&& 1 != 0
  | .down => m.full_sides &&& (1 <<< 1) != 0
  | .north => m.full_sides &&& (1 <<< 2) != 0
  | .south => m.full_sides &&& (1 <<< 3) != 0
  | .east => m.full_sides &&& (1 <<< 4) != 0
  | .west => m.full_sides &&& (1 <<< 5) != 0

/-- The model cache (`MeshDataCache`): a lookup from block state to model,
modelling the `HashMap<BlockState, BlockModelMinimal>`. -/
def ModelCache : Type := BlockState → Option BlockModelMinimal

/-- Mirrors `should_skip` with the source's bit layout for the cull mask:
north bit 0, south bit 1, east bit 2, west bit 3, up bit 4, down bit 5. -/
def should_skip (dir : Direction) (cull_info : Nat) : Bool :=
  match dir with
  | .north => cull_info &&& 1 != 0
  | .south => cull_info &&& (1 <<< 1) != 0
  | .east => cull_info &&& (1 <<< 2) != 0
  | .west => cull_info &&& (1 <<< 3) != 0
  | .up => cull_info &&& (1 <<< 4) != 0
  | .down => cull_info &&& (1 <<< 5) != 0

/-- The six face-neighbor chunks (`NeighborData`, a 6-tuple in the order
north, south, east, west, up, down). -/
structure Neighbors where
  north : ChunkData
  south : ChunkData
  east : ChunkData
  west : ChunkData
  up : ChunkData
  down : ChunkData

/-- Mirrors `setup_model_cache`: one model lookup per palette entry, indexed
by palette id. -/
def setup_model_cache (c : ChunkData) (cache : ModelCache) :
    List (Option BlockModelMinimal) :=
  c.palette.map (fun e => cache e.block)

/-- The per-chunk model arrays (`models: [Vec<..>; 7]`), indexed 0 = the
chunk itself, 1..6 = north, south, east, west, up, down (queries only ever
use 0..6). -/
def modelsOf (chunk : ChunkData) (nb : Neighbors) (cache : ModelCache) :
    Nat → List (Option BlockModelMinimal)
  | 1 => setup_model_cache nb.north cache
  | 2 => setup_model_cache nb.south cache
  | 3 => setup_model_cache nb.east cache
  | 4 => setup_model_cache nb.west cache
  | 5 => setup_model_cache nb.up cache
  | 6 => setup_model_cache nb.down cache
  | _ => setup_model_cache chunk cache

/-- The six neighbor reads of `culled_sides`, as `(palette id, model-array
index)` pairs: a cell on the chunk boundary reads the face-neighbor chunk at
the wrapped coordinate, otherwise the chunk itself at the stepped
coordinate. -/
def neighborRead (chunk : ChunkData) (nb : Neighbors) (x y z : Nat) :
    Direction → Except GErr (Nat × Nat)
  | .north =>
    if z = CHUNK_SIZE - 1 then (nb.north.block_at x y 0).map (fun i => (i, 1))
    else (chunk.block_at x y (z + 1)).map (fun i => (i, 0))
  | .south =>
    if z = 0 then (nb.south.block_at x y (CHUNK_SIZE - 1)).map (fun i => (i, 2))
    else (chunk.block_at x y (z - 1)).map (fun i => (i, 0))
  | .east =>
    if x = CHUNK_SIZE - 1 then (nb.east.block_at 0 y z).map (fun i => (i, 3))
    else (chunk.block_at (x + 1) y z).map (fun i => (i, 0))
  | .west =>
    if x = 0 then (nb.west.block_at (CHUNK_SIZE - 1) y z).map (fun i => (i, 4))
    else (chunk.block_at (x - 1) y z).map (fun i => (i, 0))
  | .up =>
    if y = CHUNK_SIZE - 1 then (nb.up.block_at x 0 z).map (fun i => (i, 5))
    else (chunk.block_at x (y + 1) z).map (fun i => (i, 0))
  | .down =>
    if y = 0 then (nb.down.block_at x (CHUNK_SIZE - 1) z).map (fun i => (i, 6))
    else (chunk.block_at x (y - 1) z).map (fun i => (i, 0))

/-- Fullness test on an optional model: a missing model (no model in the
cache for the neighboring block state) never counts as full. -/
def isFullOpt : Option BlockModelMinimal → Direction → Bool
  | some m, d => m.is_full d
  | none, _ => false

/-- Rust `bool as u8`. -/
def b2n (b : Bool) : Nat := if b then 1 else 0

/-- The cull-mask assembly of `culled_sides`:
`cull_north | cull_south << 1 | cull_east << 2 | cull_west << 3 |
cull_up << 4 | cull_down << 5`. -/
def cullBits (n s e w u d : Bool) : Nat :=
  b2n n ||| (b2n s <<< 1) ||| (b2n e <<< 2) ||| (b2n w <<< 3) |||
    (b2n u <<< 4) ||| (b2n d <<< 5)

/-- Mirrors `culled_sides`: reads the six adjacent cells (crossing into the
matching neighbor chunk at a wrapped coordinate on the boundary), looks each
neighbor's model up in the precomputed per-palette model array, and sets the
cull bit for a direction exactly when that neighbor's model is full on the
opposite side. -/
def culled_sides (chunk : ChunkData) (x y z : Nat) (nb : Neighbors)
    (models : Nat → List (Option BlockModelMinimal)) : Except GErr Nat := do
  let pn ← neighborRead chunk nb x y z .north
  let ps ← neighborRead chunk nb x y z .south
  let pe ← neighborRead chunk nb x y z .east
  let pw ← neighborRead chunk nb x y z .west
  let pu ← neighborRead chunk nb x y z .up
  let pd ← neighborRead chunk nb x y z .down
  let m_north ← liftO oobMsg ((models pn.2).get? pn.1)
  let m_south ← liftO oobMsg ((models ps.2).get? ps.1)
  let m_east ← liftO oobMsg ((models pe.2).get? pe.1)
  let m_west ← liftO oobMsg ((models pw.2).get? pw.1)
  let m_up ← liftO oobMsg ((models pu.2).get? pu.1)
  let m_down ← liftO oobMsg ((models pd.2).get? pd.1)
  .ok (cullBits (isFullOpt m_north .south) (isFullOpt m_south .north)
    (isFullOpt m_east .west) (isFullOpt m_west .east)
    (isFullOpt m_up .down) (isFullOpt m_down .up))

/-- World-local cell position pushed by the cull-info loop
(`ivec3(x as i32, y as i32, z as i32)`). -/
def posOf (i : Nat) : IVec3 :=
  ivec3 (usizeToI32 (index_to_xyz i).1) (usizeToI32 (index_to_xyz i).2.1)
    (usizeToI32 (index_to_xyz i).2.2)

/-- The first loop of `create_chunk_mesh`: per cell, decode the palette id,
skip air cells, and record `(position, block state, cull mask)` for the
rest. -/
def cullLoop (chunk : ChunkData) (nb : Neighbors)
    (models : Nat → List (Option BlockModelMinimal)) :
    List Nat → Except GErr (List (IVec3 × BlockState × Nat))
  | [] => .ok []
  | i :: rest => do
    let id ← chunk.block_at_index i
    let entry ← liftO oobMsg (chunk.palette.get? id)
    if entry.block.is_air then cullLoop chunk nb models rest
    else do
      let t := index_to_xyz i
      let cs ← culled_sides chunk t.1 t.2.1 t.2.2 nb models
      let r ← cullLoop chunk nb models rest
      .ok ((posOf i, entry.block, cs) :: r)

/-- The second loop of `create_chunk_mesh`: per recorded cell, look the
cell's own model up in the cache (no model: no faces), and keep each face
whose cull direction — if any — is not set in the cell's cull mask. -/
def collectFaces (cache : ModelCache) :
    List (IVec3 × BlockState × Nat) → List (IVec3 × FaceMinimal)
  | [] => []
  | (pos, block, ci) :: rest =>
    match cache block with
    | none => collectFaces cache rest
    | some model =>
      ((model.faces.filter (fun f =>
          match f.cull_mode with
          | some dir => !should_skip dir ci
          | none => true)).map (fun f => (pos, f))) ++ collectFaces cache rest

/-- The face-producing core of `create_chunk_mesh`: precompute the model
arrays, run the cull-info loop over all cells, then collect the surviving
faces.  (The subsequent geometry/mesh assembly copies these faces' vertex
data into vertex buffers and is not modelled.) -/
def create_chunk_faces (chunk : ChunkData) (cache : ModelCache)
    (nb : Neighbors) : Except GErr (List (IVec3 × FaceMinimal)) := do
  let models := modelsOf chunk nb cache
  let ci ← cullLoop chunk nb models (List.range BLOCKS_PER_CHUNK)
  .ok (collectFaces cache ci)

/-- Well-formedness needed by the mesher: every cell decodes to a palette id
inside the palette (single-mode chunks satisfy this whenever their palette is
nonempty). -/
def meshWF (c : ChunkData) : Prop :=
  ∀ i, i < BLOCKS_PER_CHUNK → ∃ v, c.block_at_index i = .ok v ∧ v < c.palette.length

/-- The adjacent cell's block state in a direction, read from the matching
face-neighbor chunk at the wrapped coordinate when the step crosses the
chunk boundary (the claim's description of the neighbor read, phrased with
the source's own `get_block`). -/
def adjacentState (chunk : ChunkData) (nb : Neighbors) (x y z : Nat) :
    Direction → Except GErr BlockState
  | .north =>
    if z = CHUNK_SIZE - 1 then nb.north.get_block x y 0
    else chunk.get_block x y (z + 1)
  | .south =>
    if z = 0 then nb.south.get_block x y (CHUNK_SIZE - 1)
    else chunk.get_block x y (z - 1)
  | .east =>
    if x = CHUNK_SIZE - 1 then nb.east.get_block 0 y z
    else chunk.get_block (x + 1) y z
  | .west =>
    if x = 0 then nb.west.get_block (CHUNK_SIZE - 1) y z
    else chunk.get_block (x - 1) y z
  | .up =>
    if y = CHUNK_SIZE - 1 then nb.up.get_block x 0 z
    else chunk.get_block x (y + 1) z
  | .down =>
    if y = 0 then nb.down.get_block x (CHUNK_SIZE - 1) z
    else chunk.get_block x (y - 1) z

/-- Opposite direction (a +Z face culls against the neighbor's -Z side). -/
def Direction.opposite : Direction → Direction
  | .north => .south
  | .south => .north
  | .east => .west
  | .west => .east
  | .up => .down
  | .down => .up

/-- The claim's culling condition for a cell and direction: the adjacent cell
(wrapped into the face neighbor at the boundary) holds a state that has a
model in the cache whose side opposite to the direction is marked full. -/
def neighborFullOpposite (chunk : ChunkData) (nb : Neighbors)
    (cache : ModelCache) (x y z : Nat) (d : Direction) : Prop :=
  ∃ st mdl, adjacentState chunk nb x y z d = .ok st ∧ cache st = some mdl ∧
    mdl.is_full d.opposite = true

/-- Coordinates below 32 linearise below `BLOCKS_PER_CHUNK`. -/
theorem xyz_to_index_lt (x y z : Nat) (hx : x < 32) (hy : y < 32)
    (hz : z < 32) : xyz_to_index x y z < BLOCKS_PER_CHUNK := by
  show 32 * 32 * y + 32 * x + z < 32 ^ 3
  omega

/-- Delinearisation inverts linearisation on in-range coordinates. -/
theorem index_to_xyz_of_xyz (x y z : Nat) (hx : x < 32) (hy : y < 32)
    (hz : z < 32) : index_to_xyz (xyz_to_index x y z) = (x, y, z) := by
  show ((32 * 32 * y + 32 * x + z) / 32 % 32, (32 * 32 * y + 32 * x + z) / (32 * 32),
    (32 * 32 * y + 32 * x + z) % 32) = (x, y, z)
  have h1 : (32 * 32 * y + 32 * x + z) / 32 % 32 = x := by omega
  have h2 : (32 * 32 * y + 32 * x + z) / (32 * 32) = y := by omega
  have h3 : (32 * 32 * y + 32 * x + z) % 32 = z := by omega
  rw [h1, h2, h3]

/-- Linearisation inverts delinearisation below `BLOCKS_PER_CHUNK`. -/
theorem xyz_of_index_to_xyz (i : Nat) (hi : i < BLOCKS_PER_CHUNK) :
    xyz_to_index (index_to_xyz i).1 (index_to_xyz i).2.1 (index_to_xyz i).2.2 = i := by
  show 32 * 32 * (i / (32 * 32)) + 32 * (i / 32 % 32) + i % 32 = i
  omega

/-- Components of a delinearised index are below 32. -/
theorem index_to_xyz_lt (i : Nat) (hi : i < BLOCKS_PER_CHUNK) :
    (index_to_xyz i).1 < 32 ∧ (index_to_xyz i).2.1 < 32 ∧
      (index_to_xyz i).2.2 < 32 := by
  show i / 32 % 32 < 32 ∧ i / (32 * 32) < 32 ∧ i % 32 < 32
  have hb : i < 32 ^ 3 := hi
  omega

/-- Reading the cull bit of an assembled mask returns the assembled bool. -/
theorem should_skip_cullBits (n s e w u d : Bool) (dir : Direction) :
    should_skip dir (cullBits n s e w u d) =
      match dir with
      | .north => n
      | .south => s
      | .east => e
      | .west => w
      | .up => u
      | .down => d := by
  cases n <;> cases s <;> cases e <;> cases w <;> cases u <;> cases d <;>
    cases dir <;> decide

/-- Under mesh well-formedness, an in-bounds cell read succeeds, decodes to a
state, and its model-array slot holds exactly the cache lookup of that
state. -/
theorem chunk_read_spec (c : ChunkData) (cache : ModelCache)
    (hwf : meshWF c) (x y z : Nat) (hx : x < 32) (hy : y < 32) (hz : z < 32) :
    ∃ id st, c.block_at x y z = .ok id ∧ c.get_block x y z = .ok st ∧
      (setup_model_cache c cache).get? id = some (cache st) := by
  obtain ⟨v, hv, hvlt⟩ := hwf (xyz_to_index x y z) (xyz_to_index_lt x y z hx hy hz)
  have hbounds : ¬(CHUNK_SIZE ≤ x ∨ CHUNK_SIZE ≤ y ∨ CHUNK_SIZE ≤ z) := by
    show ¬(32 ≤ x ∨ 32 ≤ y ∨ 32 ≤ z)
    omega
  have hba : c.block_at x y z = .ok v := by
    unfold ChunkData.block_at
    rw [if_neg hbounds]
    exact hv
  obtain ⟨entry, hentry⟩ : ∃ e, c.palette.get? v = some e := by
    cases hg : c.palette.get? v with
    | some e => exact ⟨e, rfl⟩
    | none =>
      have := List.get?_eq_none.mp hg
      omega
  refine ⟨v, entry.block, hba, ?_, ?_⟩
  · unfold ChunkData.get_block
    rw [if_neg hbounds]
    rw [exceptBind_ok]
    exact ⟨v, hba, by rw [hentry]; rfl⟩
  · unfold setup_model_cache
    rw [List.get?_map, hentry]
    rfl

/-- Under mesh well-formedness of the chunk and its six neighbors, each of
the six neighbor reads of `culled_sides` succeeds, its model-array slot holds
the cache lookup of the adjacent cell's state, and that state is exactly the
one `adjacentState` describes (wrapped into the face neighbor on the
boundary). -/
theorem neighborRead_spec (chunk : ChunkData) (nb : Neighbors)
    (cache : ModelCache) (hw : meshWF chunk) (hn : meshWF nb.north)
    (hs : meshWF nb.south) (he : meshWF nb.east) (hww : meshWF nb.west)
    (hu : meshWF nb.up) (hd : meshWF nb.down) (x y z : Nat)
    (hx : x < 32) (hy : y < 32) (hz : z < 32) (d : Direction) :
    ∃ id q st, neighborRead chunk nb x y z d = .ok (id, q) ∧
      (modelsOf chunk nb cache q).get? id = some (cache st) ∧
      adjacentState chunk nb x y z d = .ok st := by
  have hcs : CHUNK_SIZE = 32 := rfl
  cases d with
  | north =>
    simp only [neighborRead, adjacentState]
    by_cases hb : z = CHUNK_SIZE - 1
    · obtain ⟨id, st, h1, h2, h3⟩ :=
        chunk_read_spec nb.north cache hn x y 0 hx hy (by omega)
      exact ⟨id, 1, st, by rw [if_pos hb, h1]; rfl, h3, by rw [if_pos hb, h2]⟩
    · obtain ⟨id, st, h1, h2, h3⟩ :=
        chunk_read_spec chunk cache hw x y (z + 1) hx hy (by omega)
      exact ⟨id, 0, st, by rw [if_neg hb, h1]; rfl, h3, by rw [if_neg hb, h2]⟩
  | south =>
    simp only [neighborRead, adjacentState]
    by_cases hb : z = 0
    · obtain ⟨id, st, h1, h2, h3⟩ :=
        chunk_read_spec nb.south cache hs x y (CHUNK_SIZE - 1) hx hy (by omega)
      exact ⟨id, 2, st, by rw [if_pos hb, h1]; rfl, h3, by rw [if_pos hb, h2]⟩
    · obtain ⟨id, st, h1, h2, h3⟩ :=
        chunk_read_spec chunk cache hw x y (z - 1) hx hy (by omega)
      exact ⟨id, 0, st, by rw [if_neg hb, h1]; rfl, h3, by rw [if_neg hb, h2]⟩
  | east =>
    simp only [neighborRead, adjacentState]
    by_cases hb : x = CHUNK_SIZE - 1
    · obtain ⟨id, st, h1, h2, h3⟩ :=
        chunk_read_spec nb.east cache he 0 y z (by omega) hy hz
      exact ⟨id, 3, st, by rw [if_pos hb, h1]; rfl, h3, by rw [if_pos hb, h2]⟩
    · obtain ⟨id, st, h1, h2, h3⟩ :=
        chunk_read_spec chunk cache hw (x + 1) y z (by omega) hy hz
      exact ⟨id, 0, st, by rw [if_neg hb, h1]; rfl, h3, by rw [if_neg hb, h2]⟩
  | west =>
    simp only [neighborRead, adjacentState]
    by_cases hb : x = 0
    · obtain ⟨id, st, h1, h2, h3⟩ :=
        chunk_read_spec nb.west cache hww (CHUNK_SIZE - 1) y z (by omega) hy hz
      exact ⟨id, 4, st, by rw [if_pos hb, h1]; rfl, h3, by rw [if_pos hb, h2]⟩
    · obtain ⟨id, st, h1, h2, h3⟩ :=
        chunk_read_spec chunk cache hw (x - 1) y z (by omega) hy hz
      exact ⟨id, 0, st, by rw [if_neg hb, h1]; rfl, h3, by rw [if_neg hb, h2]⟩
  | up =>
    simp only [neighborRead, adjacentState]
    by_cases hb : y = CHUNK_SIZE - 1
    · obtain ⟨id, st, h1, h2, h3⟩ :=
        chunk_read_spec nb.up cache hu x 0 z hx (by omega) hz
      exact ⟨id, 5, st, by rw [if_pos hb, h1]; rfl, h3, by rw [if_pos hb, h2]⟩
    · obtain ⟨id, st, h1, h2, h3⟩ :=
        chunk_read_spec chunk cache hw x (y + 1) z hx (by omega) hz
      exact ⟨id, 0, st, by rw [if_neg hb, h1]; rfl, h3, by rw [if_neg hb, h2]⟩
  | down =>
    simp only [neighborRead, adjacentState]
    by_cases hb : y = 0
    · obtain ⟨id, st, h1, h2, h3⟩ :=
        chunk_read_spec nb.down cache hd x (CHUNK_SIZE - 1) z hx (by omega) hz
      exact ⟨id, 6, st, by rw [if_pos hb, h1]; rfl, h3, by rw [if_pos hb, h2]⟩
    · obtain ⟨id, st, h1, h2, h3⟩ :=
        chunk_read_spec chunk cache hw x (y - 1) z hx (by omega) hz
      exact ⟨id, 0, st, by rw [if_neg hb, h1]; rfl, h3, by rw [if_neg hb, h2]⟩

/-- Bind of a successful `Except` computation. -/
theorem ok_bind {ε α β : Type} (a : α) (f : α → Except ε β) :
    (Except.ok a >>= f) = f a := rfl

/-- Truth of the optional-model fullness test. -/
theorem isFullOpt_true_iff (o : Option BlockModelMinimal) (d : Direction) :
    isFullOpt o d = true ↔ ∃ mdl, o = some mdl ∧ mdl.is_full d = true := by
  cases o with
  | none => simp [isFullOpt]
  | some m => simp [isFullOpt]

/-- Under mesh well-formedness, `culled_sides` succeeds and its mask has the
bit for a direction set exactly when the adjacent cell in that direction has
a cached model that is full on the opposite side. -/
theorem culled_sides_spec (chunk : ChunkData) (nb : Neighbors)
    (cache : ModelCache) (hw : meshWF chunk) (hn : meshWF nb.north)
    (hs : meshWF nb.south) (he : meshWF nb.east) (hww : meshWF nb.west)
    (hu : meshWF nb.up) (hd : meshWF nb.down) (x y z : Nat)
    (hx : x < 32) (hy : y < 32) (hz : z < 32) :
    ∃ cs, culled_sides chunk x y z nb (modelsOf chunk nb cache) = .ok cs ∧
      ∀ d, should_skip d cs = true ↔
        neighborFullOpposite chunk nb cache x y z d := by
  obtain ⟨idn, qn, stn, hrn, hmn, han⟩ :=
    neighborRead_spec chunk nb cache hw hn hs he hww hu hd x y z hx hy hz .north
  obtain ⟨ids, qs, sts, hrs, hms, has⟩ :=
    neighborRead_spec chunk nb cache hw hn hs he hww hu hd x y z hx hy hz .south
  obtain ⟨ide, qe, ste, hre, hme, hae⟩ :=
    neighborRead_spec chunk nb cache hw hn hs he hww hu hd x y z hx hy hz .east
  obtain ⟨idw, qw, stw, hrw, hmw, haw⟩ :=
    neighborRead_spec chunk nb cache hw hn hs he hww hu hd x y z hx hy hz .west
  obtain ⟨idu, qu, stu, hru, hmu, hau⟩ :=
    neighborRead_spec chunk nb cache hw hn hs he hww hu hd x y z hx hy hz .up
  obtain ⟨idd, qd, std, hrd, hmd, had⟩ :=
    neighborRead_spec chunk nb cache hw hn hs he hww hu hd x y z hx hy hz .down
  refine ⟨cullBits (isFullOpt (cache stn) .south) (isFullOpt (cache sts) .north)
    (isFullOpt (cache ste) .west) (isFullOpt (cache stw) .east)
    (isFullOpt (cache stu) .down) (isFullOpt (cache std) .up), ?_, ?_⟩
  · unfold culled_sides
    rw [hrn, ok_bind, hrs, ok_bind, hre, ok_bind, hrw, ok_bind, hru, ok_bind,
      hrd, ok_bind]
    simp only [hmn, hms, hme, hmw, hmu, hmd, liftO, ok_bind]
  · intro d
    rw [should_skip_cullBits]
    cases d with
    | north =>
      rw [isFullOpt_true_iff]
      constructor
      · rintro ⟨mdl, hc, hf⟩
        exact ⟨stn, mdl, han, hc, hf⟩
      · rintro ⟨st', mdl, ha', hc', hf⟩
        rw [han] at ha'
        injection ha' with hst
        rw [← hst] at hc'
        exact ⟨mdl, hc', hf⟩
    | south =>
      rw [isFullOpt_true_iff]
      constructor
      · rintro ⟨mdl, hc, hf⟩
        exact ⟨sts, mdl, has, hc, hf⟩
      · rintro ⟨st', mdl, ha', hc', hf⟩
        rw [has] at ha'
        injection ha' with hst
        rw [← hst] at hc'
        exact ⟨mdl, hc', hf⟩
    | east =>
      rw [isFullOpt_true_iff]
      constructor
      · rintro ⟨mdl, hc, hf⟩
        exact ⟨ste, mdl, hae, hc, hf⟩
      · rintro ⟨st', mdl, ha', hc', hf⟩
        rw [hae] at ha'
        injection ha' with hst
        rw [← hst] at hc'
        exact ⟨mdl, hc', hf⟩
    | west =>
      rw [isFullOpt_true_iff]
      constructor
      · rintro ⟨mdl, hc, hf⟩
        exact ⟨stw, mdl, haw, hc, hf⟩
      · rintro ⟨st', mdl, ha', hc', hf⟩
        rw [haw] at ha'
        injection ha' with hst
        rw [← hst] at hc'
        exact ⟨mdl, hc', hf⟩
    | up =>
      rw [isFullOpt_true_iff]
      constructor
      · rintro ⟨mdl, hc, hf⟩
        exact ⟨stu, mdl, hau, hc, hf⟩
      · rintro ⟨st', mdl, ha', hc', hf⟩
        rw [hau] at ha'
        injection ha' with hst
        rw [← hst] at hc'
        exact ⟨mdl, hc', hf⟩
    | down =>
      rw [isFullOpt_true_iff]
      constructor
      · rintro ⟨mdl, hc, hf⟩
        exact ⟨std, mdl, had, hc, hf⟩
      · rintro ⟨st', mdl, ha', hc', hf⟩
        rw [had] at ha'
        injection ha' with hst
        rw [← hst] at hc'
        exact ⟨mdl, hc', hf⟩

/-- The record the cull-info loop produces for cell index `i`: its decoded
palette entry is non-air, and the triple is the cell's position, state and
computed cull mask. -/
def cellEntry (chunk : ChunkData) (nb : Neighbors) (cache : ModelCache)
    (i : Nat) (e : IVec3 × BlockState × Nat) : Prop :=
  ∃ id entry cs, chunk.block_at_index i = .ok id ∧
    chunk.palette.get? id = some entry ∧ entry.block.is_air = false ∧
    culled_sides chunk (index_to_xyz i).1 (index_to_xyz i).2.1
      (index_to_xyz i).2.2 nb (modelsOf chunk nb cache) = .ok cs ∧
    e = (posOf i, entry.block, cs)

/-- Under mesh well-formedness, the cull-info loop succeeds, and its output
holds exactly the records of the non-air cells among the visited indices. -/
theorem cullLoop_spec (chunk : ChunkData) (nb : Neighbors)
    (cache : ModelCache) (hw : meshWF chunk) (hn : meshWF nb.north)
    (hs : meshWF nb.south) (he : meshWF nb.east) (hww : meshWF nb.west)
    (hu : meshWF nb.up) (hd : meshWF nb.down) (idxs : List Nat)
    (hidx : ∀ i ∈ idxs, i < BLOCKS_PER_CHUNK) :
    ∃ l, cullLoop chunk nb (modelsOf chunk nb cache) idxs = .ok l ∧
      (∀ e ∈ l, ∃ i ∈ idxs, cellEntry chunk nb cache i e) ∧
      (∀ i ∈ idxs, ∀ e, cellEntry chunk nb cache i e → e ∈ l) := by
  induction idxs with
  | nil =>
    exact ⟨[], rfl, fun e he => absurd he (List.not_mem_nil e),
      fun i hi => absurd hi (List.not_mem_nil i)⟩
  | cons i rest ih =>
    have hi : i < BLOCKS_PER_CHUNK := hidx i (List.mem_cons_self _ _)
    obtain ⟨l', hl', hsound, hcomplete⟩ :=
      ih (fun j hj => hidx j (List.mem_cons_of_mem _ hj))
    obtain ⟨v, hv, hvlt⟩ := hw i hi
    obtain ⟨entry, hentry⟩ : ∃ e, chunk.palette.get? v = some e := by
      cases hg : chunk.palette.get? v with
      | some e => exact ⟨e, rfl⟩
      | none =>
        have := List.get?_eq_none.mp hg
        omega
    by_cases hair : entry.block.is_air = true
    · refine ⟨l', ?_, ?_, ?_⟩
      · unfold cullLoop
        rw [hv, ok_bind, hentry]
        show (if entry.block.is_air then _ else _) = _
        rw [hair]
        simp only [if_true]
        exact hl'
      · intro e he
        obtain ⟨j, hj, hcell⟩ := hsound e he
        exact ⟨j, List.mem_cons_of_mem _ hj, hcell⟩
      · intro j hj e hcell
        rcases List.mem_cons.mp hj with hji | hjr
        · obtain ⟨id', entry', cs', h1, h2, h3, _, _⟩ := hcell
          rw [hji, hv] at h1
          injection h1 with h1
          rw [← h1] at h2
          rw [hentry] at h2
          injection h2 with h2
          rw [← h2] at h3
          rw [hair] at h3
          cases h3
        · exact hcomplete j hjr e hcell
    · have hair' : entry.block.is_air = false := by
        cases hba : entry.block.is_air
        · rfl
        · exact absurd hba hair
      obtain ⟨hx32, hy32, hz32⟩ := index_to_xyz_lt i hi
      obtain ⟨cs0, hcs0, _⟩ := culled_sides_spec chunk nb cache hw hn hs he
        hww hu hd (index_to_xyz i).1 (index_to_xyz i).2.1 (index_to_xyz i).2.2
        hx32 hy32 hz32
      refine ⟨(posOf i, entry.block, cs0) :: l', ?_, ?_, ?_⟩
      · unfold cullLoop
        rw [hv, ok_bind, hentry]
        show (if entry.block.is_air then _ else _) = _
        rw [hair']
        simp only [Bool.false_eq_true, if_false]
        rw [hcs0, ok_bind, hl', ok_bind]
      · intro e he
        rcases List.mem_cons.mp he with heq | hin
        · exact ⟨i, List.mem_cons_self _ _,
            ⟨v, entry, cs0, hv, hentry, hair', hcs0, heq⟩⟩
        · obtain ⟨j, hj, hcell⟩ := hsound e hin
          exact ⟨j, List.mem_cons_of_mem _ hj, hcell⟩
      · intro j hj e hcell
        rcases List.mem_cons.mp hj with hji | hjr
        · obtain ⟨id', entry', cs', h1, h2, h3, h4, h5⟩ := hcell
          rw [hji] at h1 h4 h5
          rw [hv] at h1
          injection h1 with h1
          rw [← h1, hentry] at h2
          injection h2 with h2
          rw [hcs0] at h4
          injection h4 with h4
          rw [h5, ← h2, ← h4]
          exact List.mem_cons_self _ _
        · exact List.mem_cons_of_mem _ (hcomplete j hjr e hcell)

/-- The face filter of the second mesher loop, as a predicate. -/
def facePasses (f : FaceMinimal) (ci : Nat) : Bool :=
  match f.cull_mode with
  | some dir => !should_skip dir ci
  | none => true

/-- Membership in the collected face list: a face appears at a position
exactly when some recorded cell at that position has a cached model
containing the face, and the face's cull direction — if any — is not set in
that cell's cull mask. -/
theorem collectFaces_mem (cache : ModelCache)
    (l : List (IVec3 × BlockState × Nat)) (pos : IVec3) (f : FaceMinimal) :
    (pos, f) ∈ collectFaces cache l ↔
      ∃ b ci, (pos, b, ci) ∈ l ∧ ∃ mdl, cache b = some mdl ∧
        f ∈ mdl.faces ∧ facePasses f ci = true := by
  induction l with
  | nil =>
    simp [collectFaces]
  | cons hd rest ih =>
    obtain ⟨p, b0, ci0⟩ := hd
    show (pos, f) ∈ (match cache b0 with
      | none => collectFaces cache rest
      | some model =>
        ((model.faces.filter (fun (g : FaceMinimal) =>
            match g.cull_mode with
            | some dir => !should_skip dir ci0
            | none => true)).map (fun (g : FaceMinimal) => (p, g))) ++
          collectFaces cache rest) ↔ _
    cases hc : cache b0 with
    | none =>
      rw [ih]
      constructor
      · rintro ⟨b, ci, hbci, mdl, hmdl, hf, hp⟩
        exact ⟨b, ci, List.mem_cons_of_mem _ hbci, mdl, hmdl, hf, hp⟩
      · rintro ⟨b, ci, hbci, mdl, hmdl, hf, hp⟩
        rcases List.mem_cons.mp hbci with heq | hin
        · injection heq with h1 h2
          injection h2 with h2 h3
          rw [h2] at hmdl
          rw [hc] at hmdl
          cases hmdl
        · exact ⟨b, ci, hin, mdl, hmdl, hf, hp⟩
    | some model =>
      rw [List.mem_append, ih]
      constructor
      · rintro (hmap | ⟨b, ci, hbci, mdl, hmdl, hf, hp⟩)
        · obtain ⟨g, hg, hgeq⟩ := List.mem_map.mp hmap
          injection hgeq with h1 h2
          obtain ⟨hgf, hgpass⟩ := List.mem_filter.mp hg
          refine ⟨b0, ci0, ?_, model, hc, ?_, ?_⟩
          · rw [← h1]
            exact List.mem_cons_self _ _
          · rw [← h2]
            exact hgf
          · rw [← h2]
            exact hgpass
        · exact ⟨b, ci, List.mem_cons_of_mem _ hbci, mdl, hmdl, hf, hp⟩
      · rintro ⟨b, ci, hbci, mdl, hmdl, hf, hp⟩
        rcases List.mem_cons.mp hbci with heq | hin
        · left
          injection heq with h1 h2
          injection h2 with h2 h3
          rw [h2] at hmdl
          rw [hc] at hmdl
          injection hmdl with hmdl
          refine List.mem_map.mpr ⟨f, List.mem_filter.mpr ⟨?_, ?_⟩, by rw [h1]⟩
          · rw [hmdl]
            exact hf
          · rw [← h3]
            exact hp
        · exact .inr ⟨b, ci, hin, mdl, hmdl, hf, hp⟩

/-- The `usize` to `i32` cast is the identity below `2^31`. -/
theorem usizeToI32_small (n : Nat) (h : n < 2 ^ 31) : usizeToI32 n = n := by
  unfold usizeToI32
  rw [if_pos (show n % 2 ^ 32 < 2 ^ 31 by omega)]
  omega

/-- The pushed cell position of an in-range linear index. -/
theorem posOf_eq (x y z : Nat) (hx : x < 32) (hy : y < 32) (hz : z < 32) :
    posOf (xyz_to_index x y z) = ivec3 x y z := by
  unfold posOf
  rw [index_to_xyz_of_xyz x y z hx hy hz]
  show ivec3 (usizeToI32 x) (usizeToI32 y) (usizeToI32 z) = _
  rw [usizeToI32_small x (by omega), usizeToI32_small y (by omega),
    usizeToI32_small z (by omega)]

/-- Distinct in-range cells push distinct positions. -/
theorem posOf_inj (i j : Nat) (hi : i < BLOCKS_PER_CHUNK)
    (hj : j < BLOCKS_PER_CHUNK) (h : posOf i = posOf j) : i = j := by
  obtain ⟨hix, hiy, hiz⟩ := index_to_xyz_lt i hi
  obtain ⟨hjx, hjy, hjz⟩ := index_to_xyz_lt j hj
  unfold posOf at h
  rw [usizeToI32_small _ (by omega), usizeToI32_small _ (by omega),
    usizeToI32_small _ (by omega), usizeToI32_small _ (by omega),
    usizeToI32_small _ (by omega), usizeToI32_small _ (by omega)] at h
  injection h with h1 h2 h3
  have e1 : (index_to_xyz i).1 = (index_to_xyz j).1 := by exact_mod_cast h1
  have e2 : (index_to_xyz i).2.1 = (index_to_xyz j).2.1 := by exact_mod_cast h2
  have e3 : (index_to_xyz i).2.2 = (index_to_xyz j).2.2 := by exact_mod_cast h3
  have := xyz_of_index_to_xyz i hi
  rw [e1, e2, e3] at this
  rw [← this, xyz_of_index_to_xyz j hj]

/-- C4: for a non-air cell (x,y,z) whose state has a model in the cache, and
a face of that model, the mesher emits the face exactly when its cull
direction — if any — does not point at an adjacent cell (read from the
matching face neighbor at the wrapped coordinate when crossing the boundary)
whose cached model is full on the opposite side; faces without a cull
direction are always emitted, and a neighbor state missing from the cache
never culls (it can never satisfy `neighborFullOpposite`). -/
theorem c4_face_culling (chunk : ChunkData) (nb : Neighbors)
    (cache : ModelCache) (hw : meshWF chunk) (hn : meshWF nb.north)
    (hs : meshWF nb.south) (he : meshWF nb.east) (hww : meshWF nb.west)
    (hu : meshWF nb.up) (hd : meshWF nb.down) (x y z : Nat)
    (hx : x < 32) (hy : y < 32) (hz : z < 32) (s : BlockState)
    (hsb : chunk.get_block x y z = .ok s) (hair : s.is_air = false)
    (m : BlockModelMinimal) (hm : cache s = some m)
    (f : FaceMinimal) (hf : f ∈ m.faces) :
    ∃ fs, create_chunk_faces chunk cache nb = .ok fs ∧
      (∀ d, f.cull_mode = some d →
        ((ivec3 x y z, f) ∈ fs ↔
          ¬neighborFullOpposite chunk nb cache x y z d)) ∧
      (f.cull_mode = none → (ivec3 x y z, f) ∈ fs) := by
  have hi : xyz_to_index x y z < BLOCKS_PER_CHUNK := xyz_to_index_lt x y z hx hy hz
  have hbounds : ¬(CHUNK_SIZE ≤ x ∨ CHUNK_SIZE ≤ y ∨ CHUNK_SIZE ≤ z) := by
    show ¬(32 ≤ x ∨ 32 ≤ y ∨ 32 ≤ z)
    omega
  obtain ⟨v, hv, hvlt⟩ := hw (xyz_to_index x y z) hi
  obtain ⟨entry, hentry⟩ : ∃ e, chunk.palette.get? v = some e := by
    cases hg : chunk.palette.get? v with
    | some e => exact ⟨e, rfl⟩
    | none =>
      have := List.get?_eq_none.mp hg
      omega
  have hgb : chunk.get_block x y z = .ok entry.block := by
    unfold ChunkData.get_block
    rw [if_neg hbounds, exceptBind_ok]
    refine ⟨v, ?_, by rw [hentry]; rfl⟩
    unfold ChunkData.block_at
    rw [if_neg hbounds]
    exact hv
  have hes : entry.block = s := by
    rw [hsb] at hgb
    injection hgb with hgb
    exact hgb.symm
  obtain ⟨cs, hcs, hcsiff⟩ := culled_sides_spec chunk nb cache hw hn hs he
    hww hu hd x y z hx hy hz
  obtain ⟨l, hl, hsound, hcomplete⟩ := cullLoop_spec chunk nb cache hw hn hs
    he hww hu hd (List.range BLOCKS_PER_CHUNK)
    (fun j hj => List.mem_range.mp hj)
  have hcs' : culled_sides chunk (index_to_xyz (xyz_to_index x y z)).1
      (index_to_xyz (xyz_to_index x y z)).2.1
      (index_to_xyz (xyz_to_index x y z)).2.2 nb
      (modelsOf chunk nb cache) = .ok cs := by
    rw [index_to_xyz_of_xyz x y z hx hy hz]
    exact hcs
  have hcell : cellEntry chunk nb cache (xyz_to_index x y z)
      (posOf (xyz_to_index x y z), s, cs) := by
    refine ⟨v, entry, cs, hv, hentry, by rw [hes]; exact hair, hcs', by rw [hes]⟩
  have he0 : (posOf (xyz_to_index x y z), s, cs) ∈ l :=
    hcomplete (xyz_to_index x y z) (List.mem_range.mpr hi) _ hcell
  have hmem : ∀ g : FaceMinimal,
      ((ivec3 x y z, g) ∈ collectFaces cache l ↔
        g ∈ m.faces ∧ facePasses g cs = true) := by
    intro g
    rw [collectFaces_mem]
    constructor
    · rintro ⟨b, ci, hbci, mdl, hmdl, hgf, hgp⟩
      obtain ⟨j, hjmem, hjcell⟩ := hsound _ hbci
      obtain ⟨id', entry', cs', h1, h2, h3, h4, h5⟩ := hjcell
      injection h5 with h5a h5b
      injection h5b with h5b h5c
      have hj : j < BLOCKS_PER_CHUNK := List.mem_range.mp hjmem
      have hij : j = xyz_to_index x y z := by
        apply posOf_inj j (xyz_to_index x y z) hj hi
        rw [← h5a, posOf_eq x y z hx hy hz]
      rw [hij] at h1 h4
      rw [hv] at h1
      injection h1 with h1
      rw [← h1, hentry] at h2
      injection h2 with h2
      rw [hcs'] at h4
      injection h4 with h4
      rw [h5b, ← h2, hes] at hmdl
      rw [hm] at hmdl
      injection hmdl with hmdl
      rw [← hmdl] at hgf
      rw [h5c, ← h4] at hgp
      exact ⟨hgf, hgp⟩
    · rintro ⟨hgf, hgp⟩
      refine ⟨s, cs, ?_, m, hm, hgf, hgp⟩
      rw [← posOf_eq x y z hx hy hz]
      exact he0
  refine ⟨collectFaces cache l, ?_, ?_, ?_⟩
  · show (cullLoop chunk nb (modelsOf chunk nb cache)
        (List.range BLOCKS_PER_CHUNK) >>= fun ci =>
          Except.ok (collectFaces cache ci)) = _
    rw [hl, ok_bind]
  · intro d hdm
    rw [hmem f]
    have hfp : facePasses f cs = !should_skip d cs := by
      unfold facePasses
      rw [hdm]
    rw [hfp]
    constructor
    · rintro ⟨_, hskip⟩
      rw [Bool.not_eq_true'] at hskip
      intro hnf
      rw [(hcsiff d).mpr hnf] at hskip
      cases hskip
    · intro hnf
      refine ⟨hf, ?_⟩
      rw [Bool.not_eq_true']
      cases hsk : should_skip d cs with
      | false => rfl
      | true => exact absurd ((hcsiff d).mp hsk) hnf
  · intro hdm
    rw [hmem f]
    refine ⟨hf, ?_⟩
    unfold facePasses
    rw [hdm]

/-- Concrete model used by the C4 witness: one north-culling face, no full
sides. -/
def mW : BlockModelMinimal := ⟨[⟨some .north, 0⟩], 0⟩

/-- Concrete cache used by the C4 witness: stone has the model `mW`, air
(and everything else) has no model. -/
def cacheW : ModelCache := fun s => if s = stoneState then some mW else none

/-- Concrete chunk of the C4 witness: a uniform stone chunk. -/
def chunkW : ChunkData := ChunkData.single stoneState

/-- Concrete neighbors of the C4 witness: six uniform air chunks. -/
def nbW : Neighbors :=
  ⟨ChunkData.single airState, ChunkData.single airState,
   ChunkData.single airState, ChunkData.single airState,
   ChunkData.single airState, ChunkData.single airState⟩

/-- Single-mode chunks with a nonempty palette satisfy `meshWF`. -/
theorem meshWF_single (b : BlockState) : meshWF (ChunkData.single b) :=
  fun _ _ => ⟨0, rfl, Nat.zero_lt_one⟩

/-- C4 witness: the culling theorem applied at cell (0,0,0) of a uniform
stone chunk with air neighbors, for the stone model's north-culling face. -/
theorem c4_face_culling_witness :
    (chunkW.get_block 0 0 0 = .ok stoneState ∧ stoneState.is_air = false ∧
      cacheW stoneState = some mW ∧
      (⟨some .north, 0⟩ : FaceMinimal) ∈ mW.faces) ∧
    (∃ fs, create_chunk_faces chunkW cacheW nbW = .ok fs ∧
      (∀ d, (⟨some .north, 0⟩ : FaceMinimal).cull_mode = some d →
        ((ivec3 0 0 0, (⟨some .north, 0⟩ : FaceMinimal)) ∈ fs ↔
          ¬neighborFullOpposite chunkW nbW cacheW 0 0 0 d)) ∧
      ((⟨some .north, 0⟩ : FaceMinimal).cull_mode = none →
        (ivec3 0 0 0, (⟨some Direction.north, 0⟩ : FaceMinimal)) ∈ fs)) :=
  ⟨⟨by decide, by decide, by decide, by decide⟩,
   c4_face_culling chunkW nbW cacheW (meshWF_single stoneState)
     (meshWF_single airState) (meshWF_single airState) (meshWF_single airState)
     (meshWF_single airState) (meshWF_single airState) (meshWF_single airState)
     0 0 0 (by decide) (by decide) (by decide) stoneState (by decide)
     (by decide) mW (by decide) ⟨some .north, 0⟩ (by decide)⟩
/- ===== C3 machinery: bit-level packing lemmas ===== -/

/-- Positional value of a masked digit list, least-significant digit first:
the word that `packGo` accumulates for one 64-bit group. -/
def qwOfA (s : Nat) : List Nat → Nat
  | [] => 0
  | d :: ds => (d &&& (2 ^ s - 1)) + qwOfA s ds * 2 ^ s

/-- A masked digit fits in `s` bits. -/
theorem and_mask_lt (d s : Nat) : d &&& (2 ^ s - 1) < 2 ^ s :=
  Nat.and_lt_two_pow d (Nat.sub_lt (Nat.two_pow_pos s) Nat.one_pos)

/-- The accumulated word of a digit group fits in the group's bit budget. -/
theorem qwOfA_lt (s : Nat) (ds : List Nat) : qwOfA s ds < 2 ^ (ds.length * s) := by
  induction ds with
  | nil => simp [qwOfA]
  | cons d t ih =>
    have h1 : d &&& (2 ^ s - 1) < 2 ^ s := and_mask_lt d s
    calc qwOfA s (d :: t) = (d &&& (2 ^ s - 1)) + qwOfA s t * 2 ^ s := rfl
      _ < 2 ^ s + qwOfA s t * 2 ^ s := by omega
      _ = (qwOfA s t + 1) * 2 ^ s := by ring
      _ ≤ 2 ^ (t.length * s) * 2 ^ s := Nat.mul_le_mul_right _ ih
      _ = 2 ^ (t.length * s + s) := (Nat.pow_add 2 _ _).symm
      _ = 2 ^ ((d :: t).length * s) := by rw [List.length_cons]; congr 1; ring

/-- Extracting the `j`-th `s`-bit field of an accumulated word recovers the
`j`-th masked digit. -/
theorem qwOfA_extract (s : Nat) (ds : List Nat) (j : Nat) :
    (qwOfA s ds >>> (j * s)) % 2 ^ s = (ds.getD j 0) &&& (2 ^ s - 1) := by
  induction ds generalizing j with
  | nil => simp [qwOfA]
  | cons d t ih =>
    cases j with
    | zero =>
      rw [Nat.zero_mul, Nat.shiftRight_zero, List.getD_cons_zero]
      show ((d &&& (2 ^ s - 1)) + qwOfA s t * 2 ^ s) % 2 ^ s = d &&& (2 ^ s - 1)
      rw [Nat.add_mul_mod_self_right, Nat.mod_eq_of_lt (and_mask_lt d s)]
    | succ j' =>
      rw [List.getD_cons_succ]
      have h1 : (j' + 1) * s = s + j' * s := by ring
      rw [h1, Nat.shiftRight_add]
      have h2 : qwOfA s (d :: t) >>> s = qwOfA s t := by
        show ((d &&& (2 ^ s - 1)) + qwOfA s t * 2 ^ s) >>> s = qwOfA s t
        rw [Nat.shiftRight_eq_div_pow,
          Nat.add_mul_div_right _ _ (Nat.two_pow_pos s),
          Nat.div_eq_of_lt (and_mask_lt d s), Nat.zero_add]
      rw [h2]
      exact ih j'

/-- Oring a value below `2 ^ s` with a word shifted up by `s` is addition. -/
theorem or_shiftLeft_eq_add (a b s : Nat) (h : a < 2 ^ s) :
    a ||| (b <<< s) = a + b * 2 ^ s := by
  have hmod : (a ||| b <<< s) % 2 ^ s = a := by
    rw [← Nat.and_pow_two_sub_one_eq_mod]
    apply Nat.eq_of_testBit_eq
    intro i
    simp only [Nat.testBit_and, Nat.testBit_or, Nat.testBit_shiftLeft,
      Nat.testBit_two_pow_sub_one]
    by_cases hi : i < s
    · have hns : ¬ s ≤ i := by omega
      simp [hi, hns]
    · have ha : a.testBit i = false :=
        Nat.testBit_lt_two_pow
          (lt_of_lt_of_le h (Nat.pow_le_pow_right (by omega) (by omega)))
      simp [hi, ha]
  have hdiv : (a ||| b <<< s) >>> s = b := by
    apply Nat.eq_of_testBit_eq
    intro i
    simp only [Nat.testBit_shiftRight, Nat.testBit_or, Nat.testBit_shiftLeft]
    have ha : a.testBit (s + i) = false :=
      Nat.testBit_lt_two_pow
        (lt_of_lt_of_le h (Nat.pow_le_pow_right (by omega) (Nat.le_add_right s i)))
    have hs : s ≤ s + i := Nat.le_add_right s i
    simp [ha, hs, Nat.add_sub_cancel_left]
  have hrec := Nat.mod_add_div (a ||| b <<< s) (2 ^ s)
  rw [hmod] at hrec
  rw [Nat.shiftRight_eq_div_pow] at hdiv
  rw [hdiv, Nat.mul_comm] at hrec
  omega

/-- The id extraction step of the unpacking loop (`((mask << bp) & qw) >> bp`
with the `u64` truncation of the shifted mask) is field extraction. -/
theorem maskExtract (s bp qw : Nat) (h : bp + s ≤ 64) :
    ((((2 ^ s - 1) <<< bp) % 2 ^ 64) &&& qw) >>> bp = (qw >>> bp) % 2 ^ s := by
  have hlt : (2 ^ s - 1) <<< bp < 2 ^ 64 := by
    rw [Nat.shiftLeft_eq]
    calc (2 ^ s - 1) * 2 ^ bp < 2 ^ s * 2 ^ bp :=
          (Nat.mul_lt_mul_right (Nat.two_pow_pos bp)).mpr
            (Nat.sub_lt (Nat.two_pow_pos s) Nat.one_pos)
      _ = 2 ^ (s + bp) := (Nat.pow_add 2 s bp).symm
      _ ≤ 2 ^ 64 := Nat.pow_le_pow_right (by omega) (by omega)
  rw [Nat.mod_eq_of_lt hlt, ← Nat.and_pow_two_sub_one_eq_mod]
  apply Nat.eq_of_testBit_eq
  intro i
  simp only [Nat.testBit_shiftRight, Nat.testBit_and, Nat.testBit_shiftLeft,
    Nat.testBit_two_pow_sub_one]
  have h2 : bp ≤ bp + i := Nat.le_add_right bp i
  simp [h2, Nat.add_sub_cancel_left, Bool.and_comm]

/-- One 64-bit group of the packing loop: with `bp` bits already filled by
`qw`, a digit group that exactly fills the word is accumulated on top of it
and pushed, and packing continues on the rest with a fresh word. -/
theorem packGo_chunk (s : Nat) (hs : 1 ≤ s) (g : List Nat) :
    ∀ (rest : List Nat) (qw bp : Nat), g ≠ [] → bp + g.length * s = 64 →
      qw < 2 ^ bp →
      packGo s (g ++ rest) qw bp = (qw + qwOfA s g * 2 ^ bp) :: packGo s rest 0 0 := by
  induction g with
  | nil => intro rest qw bp hg _ _; exact absurd rfl hg
  | cons d t ih =>
    intro rest qw bp _ hlen hqw
    have hexp : bp + s + t.length * s = 64 := by
      rw [List.length_cons, Nat.add_mul, Nat.one_mul] at hlen
      omega
    have hto : ((d &&& (2 ^ s - 1)) <<< bp) % 2 ^ 64 = (d &&& (2 ^ s - 1)) <<< bp := by
      apply Nat.mod_eq_of_lt
      rw [Nat.shiftLeft_eq]
      calc (d &&& (2 ^ s - 1)) * 2 ^ bp < 2 ^ s * 2 ^ bp :=
            (Nat.mul_lt_mul_right (Nat.two_pow_pos bp)).mpr (and_mask_lt d s)
        _ = 2 ^ (s + bp) := (Nat.pow_add 2 s bp).symm
        _ ≤ 2 ^ 64 := Nat.pow_le_pow_right (by omega) (by omega)
    rw [List.cons_append, packGo]
    simp only [hto, or_shiftLeft_eq_add qw (d &&& (2 ^ s - 1)) bp hqw]
    cases t with
    | nil =>
      simp only [List.length_nil, Nat.zero_mul, Nat.add_zero] at hexp
      rw [if_pos (by omega : 64 ≤ bp + s), List.nil_append]
      simp [qwOfA]
    | cons d' t' =>
      rw [List.length_cons, Nat.add_mul, Nat.one_mul] at hexp
      have hbp : ¬ 64 ≤ bp + s := by omega
      rw [if_neg hbp]
      have hqw' : qw + (d &&& (2 ^ s - 1)) * 2 ^ bp < 2 ^ (bp + s) := by
        have h1 : (d &&& (2 ^ s - 1)) * 2 ^ bp ≤ (2 ^ s - 1) * 2 ^ bp :=
          Nat.mul_le_mul_right _ (by have := and_mask_lt d s; omega)
        have h2 : (2 ^ s - 1) * 2 ^ bp = 2 ^ bp * 2 ^ s - 2 ^ bp := by
          rw [Nat.sub_mul, Nat.one_mul, Nat.mul_comm]
        have h3 : 2 ^ bp ≤ 2 ^ bp * 2 ^ s :=
          Nat.le_mul_of_pos_right _ (Nat.two_pow_pos s)
        rw [Nat.pow_add]
        omega
      rw [ih rest (qw + (d &&& (2 ^ s - 1)) * 2 ^ bp) (bp + s) (List.cons_ne_nil d' t')
        (by rw [List.length_cons, Nat.add_mul, Nat.one_mul]; omega) hqw']
      have hq : qw + (d &&& (2 ^ s - 1)) * 2 ^ bp + qwOfA s (d' :: t') * 2 ^ (bp + s)
          = qw + ((d &&& (2 ^ s - 1)) + qwOfA s (d' :: t') * 2 ^ s) * 2 ^ bp := by
        rw [Nat.pow_add]
        ring
      rw [show qwOfA s (d :: d' :: t')
          = (d &&& (2 ^ s - 1)) + qwOfA s (d' :: t') * 2 ^ s from rfl, ← hq]

/-- One 64-bit group of the unpacking loop: positioned after `pre` digits of a
word holding the digit group `full`, the loop emits the bytes of the remaining
masked digits of the word and then continues with the next word. -/
theorem unpackGo_qword (s0 : Nat) (db : Bool) (qws : List Nat) (full : List Nat)
    (hfull : full.length * (s0 + 1) = 64) :
    ∀ (suf pre : List Nat), full = pre ++ suf → suf ≠ [] →
    unpackGo s0 db (qwOfA (s0 + 1) full :: qws) (pre.length * (s0 + 1)) =
      (suf.map (fun d => d &&& (2 ^ (s0 + 1) - 1))).flatMap (splitBytes db) ++
        unpackGo s0 db qws 0 := by
  intro suf
  induction suf with
  | nil => intro pre _ hsuf; exact absurd rfl hsuf
  | cons d t ih =>
    intro pre hpre _
    have hdist : pre.length * (s0 + 1) + (s0 + 1) + t.length * (s0 + 1) = 64 := by
      have h0 : full.length = pre.length + 1 + t.length := by
        rw [hpre, List.length_append, List.length_cons]
        omega
      rw [h0, Nat.add_mul, Nat.add_mul, Nat.one_mul] at hfull
      omega
    have hid : ((((2 ^ (s0 + 1) - 1) <<< (pre.length * (s0 + 1))) % 2 ^ 64) &&&
        qwOfA (s0 + 1) full) >>> (pre.length * (s0 + 1)) = d &&& (2 ^ (s0 + 1) - 1) := by
      rw [maskExtract _ _ _ (by omega), qwOfA_extract, hpre,
        List.getD_append_right _ _ _ _ (Nat.le_refl _), Nat.sub_self,
        List.getD_cons_zero]
    rw [unpackGo]
    simp only [hid]
    cases t with
    | nil =>
      simp only [List.length_nil, Nat.zero_mul, Nat.add_zero] at hdist
      rw [if_pos (by omega : 64 ≤ pre.length * (s0 + 1) + (s0 + 1))]
      rw [List.map_cons, List.map_nil, List.flatMap_cons, List.flatMap_nil,
        List.append_nil]
    | cons d' t'' =>
      rw [List.length_cons, Nat.add_mul, Nat.one_mul] at hdist
      rw [if_neg (by omega : ¬ 64 ≤ pre.length * (s0 + 1) + (s0 + 1))]
      have harith : pre.length * (s0 + 1) + (s0 + 1) = (pre ++ [d]).length * (s0 + 1) := by
        rw [List.length_append, List.length_cons, List.length_nil, Nat.add_mul,
          Nat.one_mul]
      rw [harith]
      rw [ih (pre ++ [d]) (by rw [hpre]; simp) (List.cons_ne_nil d' t'')]
      simp [List.append_assoc]

/-- Unpacking inverts packing digit-wise: for a bit width dividing 64 and a
digit count filling whole words, the unpacked byte stream is the masked digit
stream split into bytes. -/
theorem unpackGo_packGo (s : Nat) (db : Bool) (hs : 1 ≤ s) (hdvd : s ∣ 64) :
    ∀ (n : Nat) (ids : List Nat), ids.length = n → (64 / s) ∣ ids.length →
    unpackGo (s - 1) db (packGo s ids 0 0) 0 =
      (ids.map (fun d => d &&& (2 ^ s - 1))).flatMap (splitBytes db) := by
  have hs1 : s - 1 + 1 = s := by omega
  have hks : 64 / s * s = 64 := Nat.div_mul_cancel hdvd
  have hk1 : 1 ≤ 64 / s := by
    rcases Nat.eq_zero_or_pos (64 / s) with h0 | h0
    · have hcopy := hks
      rw [h0, Nat.zero_mul] at hcopy
      omega
    · exact h0
  intro n
  induction n using Nat.strong_induction_on with
  | _ n IH =>
    intro ids hn hdl
    by_cases hids : ids = []
    · subst hids
      rw [packGo, unpackGo]
      rfl
    · have hlen0 : 0 < ids.length := List.length_pos.mpr hids
      have hkle : 64 / s ≤ ids.length := Nat.le_of_dvd hlen0 hdl
      have htake : (ids.take (64 / s)).length = 64 / s := by
        rw [List.length_take]
        omega
      have hne : ids.take (64 / s) ≠ [] := by
        intro hcon
        rw [hcon] at htake
        rw [List.length_nil] at htake
        omega
      have hsplit : ids = ids.take (64 / s) ++ ids.drop (64 / s) :=
        (List.take_append_drop _ _).symm
      conv_lhs => rw [hsplit]
      rw [packGo_chunk s hs (ids.take (64 / s)) (ids.drop (64 / s)) 0 0 hne
        (by rw [htake, Nat.zero_add]; exact hks) Nat.one_pos]
      rw [Nat.pow_zero, Nat.mul_one, Nat.zero_add]
      have hfull : (ids.take (64 / s)).length * (s - 1 + 1) = 64 := by
        rw [hs1, htake]
        exact hks
      have hq := unpackGo_qword (s - 1) db (packGo s (ids.drop (64 / s)) 0 0)
        (ids.take (64 / s)) hfull (ids.take (64 / s)) [] rfl hne
      rw [List.length_nil, Nat.zero_mul] at hq
      rw [hs1] at hq
      rw [hq]
      have hdrop : (ids.drop (64 / s)).length < n := by
        rw [List.length_drop]
        omega
      rw [IH (ids.drop (64 / s)).length hdrop (ids.drop (64 / s)) rfl
        (by
          rw [List.length_drop]
          exact Nat.dvd_sub' hdl (Nat.dvd_refl _))]
      conv_rhs => rw [hsplit]
      rw [List.map_append, List.flatMap_append]

/-- The packed bit width is always at least 1 (the `.max(1)` clamp). -/
theorem idSize_pos (n : Nat) : 1 ≤ idSize n := by
  unfold idSize
  split
  · exact Nat.le_refl 1
  · exact Nat.one_le_two_pow

/-- For any palette that fits in 64-bit ids, the packed bit width divides 64. -/
theorem idSize_dvd_64 (n : Nat) (h : n ≤ 2 ^ 64) : idSize n ∣ 64 := by
  unfold idSize
  split
  · exact Nat.one_dvd 64
  · have h1 : Nat.clog 2 n ≤ 64 := by
      calc Nat.clog 2 n ≤ Nat.clog 2 (2 ^ 64) := Nat.clog_mono_right 2 h
        _ = 64 := Nat.clog_pow 2 64 (by omega)
    have h2 : Nat.clog 2 (Nat.clog 2 n) ≤ 6 := by
      calc Nat.clog 2 (Nat.clog 2 n) ≤ Nat.clog 2 64 := Nat.clog_mono_right 2 h1
        _ = 6 := by
          rw [show (64 : Nat) = 2 ^ 6 by norm_num, Nat.clog_pow 2 6 (by omega)]
    rw [show (64 : Nat) = 2 ^ 6 by norm_num]
    exact Nat.pow_dvd_pow 2 h2

/-- The packed bit width is wide enough for every id below the palette length. -/
theorem le_two_pow_idSize (n : Nat) : n ≤ 2 ^ idSize n := by
  unfold idSize
  split
  · next h => exact h.trans (by norm_num)
  · calc n ≤ 2 ^ Nat.clog 2 n := Nat.le_pow_clog (by omega) n
      _ ≤ 2 ^ 2 ^ Nat.clog 2 (Nat.clog 2 n) :=
        Nat.pow_le_pow_right (by omega) (Nat.le_pow_clog (by omega) _)

/-- `mapE` only depends on the function's values on the list. -/
theorem mapE_congr {α β : Type} (f g : α → Except GErr β) (l : List α)
    (h : ∀ a ∈ l, f a = g a) : mapE f l = mapE g l := by
  induction l with
  | nil => rfl
  | cons a t ih =>
    rw [mapE, mapE, h a (List.mem_cons_self a t),
      ih (fun b hb => h b (List.mem_cons_of_mem a hb))]

/-- Every element of a successful `mapE` output is the image of a list
element. -/
theorem mapE_ok_mem {α β : Type} (f : α → Except GErr β) (l : List α)
    (bs : List β) (h : mapE f l = .ok bs) : ∀ b ∈ bs, ∃ a ∈ l, f a = .ok b := by
  induction l generalizing bs with
  | nil =>
    rw [mapE] at h
    injection h with h
    subst h
    intro b hb
    cases hb
  | cons a t ih =>
    rw [mapE] at h
    obtain ⟨b0, hb0, h2⟩ := (exceptBind_ok _ _ _).mp h
    obtain ⟨bs', hbs', h3⟩ := (exceptBind_ok _ _ _).mp h2
    injection h3 with h3
    subst h3
    intro b hb
    rcases List.mem_cons.mp hb with hbe | hbm
    · exact ⟨a, List.mem_cons_self a t, hbe ▸ hb0⟩
    · obtain ⟨a', ha', hfa⟩ := ih bs' hbs' b hbm
      exact ⟨a', List.mem_cons_of_mem a ha', hfa⟩

/-- Recombines the little-endian byte pairs of a double-width cell array into
the per-cell ids that `block_at_index` decodes. -/
def pairIds : List Nat → List Nat
  | lo :: hi :: rest => ((hi <<< 8) ||| lo) :: pairIds rest
  | _ => []

/-- A byte list of even length yields half as many recombined ids. -/
theorem pairIds_length : ∀ (n : Nat) (l : List Nat), l.length = n * 2 →
    (pairIds l).length = n := by
  intro n
  induction n with
  | zero =>
    intro l hl
    have h0 : l = [] := List.length_eq_zero.mp (by omega)
    subst h0
    rfl
  | succ m ih =>
    intro l hl
    cases l with
    | nil => rw [List.length_nil] at hl; omega
    | cons lo l' =>
      cases l' with
      | nil => rw [List.length_cons, List.length_nil] at hl; omega
      | cons hi rest =>
        rw [List.length_cons, List.length_cons] at hl
        show (((hi <<< 8) ||| lo) :: pairIds rest).length = m + 1
        rw [List.length_cons, ih rest (by omega)]

/-- Reading a double-width cell range through `get?` recombines byte pairs. -/
theorem mapE_pair_aux (data : List Nat) :
    ∀ (m j : Nat), data.length = (j + m) * 2 →
    mapE (fun i => do
        let hi ← liftO oobMsg (data.get? (i * 2 + 1))
        let lo ← liftO oobMsg (data.get? (i * 2))
        Except.ok ((hi <<< 8) ||| lo))
      (List.range' j m) = .ok (pairIds (data.drop (j * 2))) := by
  intro m
  induction m with
  | zero =>
    intro j hl
    rw [List.range'_zero]
    rw [List.drop_eq_nil_of_le (by omega)]
    rfl
  | succ m' ih =>
    intro j hl
    rw [List.range'_succ]
    have hd2 : 2 ≤ (data.drop (j * 2)).length := by
      rw [List.length_drop]
      omega
    obtain ⟨lo, hi, rest, hdd⟩ : ∃ lo hi rest, data.drop (j * 2) = lo :: hi :: rest := by
      cases hg : data.drop (j * 2) with
      | nil => rw [hg] at hd2; simp at hd2
      | cons a l2 =>
        cases hg2 : l2 with
        | nil =>
          rw [hg, hg2] at hd2
          simp at hd2
        | cons b r => exact ⟨a, b, r, rfl⟩
    have hget0 : data.get? (j * 2) = some lo := by
      have hx := List.get?_drop data (j * 2) 0
      rw [hdd] at hx
      simpa using hx.symm
    have hget1 : data.get? (j * 2 + 1) = some hi := by
      have hx := List.get?_drop data (j * 2) 1
      rw [hdd] at hx
      simpa using hx.symm
    simp only [mapE]
    rw [hget0, hget1]
    rw [ih (j + 1) (by omega)]
    have harith : (j + 1) * 2 = j * 2 + 2 := by ring
    have hdrop : data.drop ((j + 1) * 2) = rest := by
      rw [harith, ← List.drop_drop, hdd]
      rfl
    rw [hdrop, hdd]
    rfl

/-- The id stream read by the packing loop of a single-width dense chunk is
the raw byte array. -/
theorem mapE_block_at_index_single_width (c : ChunkData)
    (hsingle : c.is_single = false) (hdb : c.double_bytes = false)
    (hlen : c.data.length = BLOCKS_PER_CHUNK) :
    mapE c.block_at_index (List.range BLOCKS_PER_CHUNK) = .ok c.data := by
  have h1 : ∀ i ∈ List.range BLOCKS_PER_CHUNK,
      c.block_at_index i = liftO oobMsg (c.data.get? i) := by
    intro i _
    unfold ChunkData.block_at_index
    rw [hsingle, hdb]
    simp
  rw [mapE_congr _ _ _ h1, ← hlen]
  exact mapE_get_range oobMsg c.data

/-- The id stream read by the packing loop of a double-width dense chunk is
the byte array recombined in little-endian pairs. -/
theorem mapE_block_at_index_double_width (c : ChunkData)
    (hsingle : c.is_single = false) (hdb : c.double_bytes = true)
    (hlen : c.data.length = DOUBLE_BLOCKS_PER_CHUNK) :
    mapE c.block_at_index (List.range BLOCKS_PER_CHUNK) = .ok (pairIds c.data) := by
  have h1 : ∀ i ∈ List.range BLOCKS_PER_CHUNK, c.block_at_index i = (do
      let hi ← liftO oobMsg (c.data.get? (i * 2 + 1))
      let lo ← liftO oobMsg (c.data.get? (i * 2))
      Except.ok ((hi <<< 8) ||| lo)) := by
    intro i _
    unfold ChunkData.block_at_index
    rw [hsingle, hdb]
    simp
  rw [mapE_congr _ _ _ h1]
  have h2 := mapE_pair_aux c.data BLOCKS_PER_CHUNK 0
    (by rw [hlen]; simp [DOUBLE_BLOCKS_PER_CHUNK])
  rw [List.range_eq_range']
  simpa using h2

/-- Splitting single-width ids into bytes is the identity on byte values. -/
theorem flatMap_splitBytes_false (l : List Nat) (h : ∀ b ∈ l, b < 256) :
    l.flatMap (splitBytes false) = l := by
  induction l with
  | nil => rfl
  | cons a t ih =>
    rw [List.flatMap_cons, ih (fun b hb => h b (List.mem_cons_of_mem a hb))]
    show (a % 256) :: t = a :: t
    rw [Nat.mod_eq_of_lt (h a (List.mem_cons_self a t))]

/-- Splitting a recombined double-width id recovers its little-endian bytes. -/
theorem splitBytes_pair (lo hi : Nat) (hlo : lo < 256) (hhi : hi < 256) :
    splitBytes true ((hi <<< 8) ||| lo) = [lo, hi] := by
  have hor : (hi <<< 8) ||| lo = lo + hi * 2 ^ 8 := by
    rw [Nat.or_comm]
    exact or_shiftLeft_eq_add lo hi 8 (by simpa using hlo)
  show [((hi <<< 8) ||| lo) % 256, (((hi <<< 8) ||| lo) >>> 8) % 256] = [lo, hi]
  rw [hor]
  have h1 : (lo + hi * 2 ^ 8) % 256 = lo := by
    rw [show (2 : Nat) ^ 8 = 256 by norm_num, Nat.add_mul_mod_self_right,
      Nat.mod_eq_of_lt hlo]
  have h2 : ((lo + hi * 2 ^ 8) >>> 8) % 256 = hi := by
    rw [Nat.shiftRight_eq_div_pow, Nat.add_mul_div_right _ _ (Nat.two_pow_pos 8),
      Nat.div_eq_of_lt (by simpa using hlo), Nat.zero_add, Nat.mod_eq_of_lt hhi]
  rw [h1, h2]

/-- Splitting the recombined ids of an even-length byte array restores it. -/
theorem pairIds_flatMap : ∀ (n : Nat) (l : List Nat), l.length = n * 2 →
    (∀ b ∈ l, b < 256) → (pairIds l).flatMap (splitBytes true) = l := by
  intro n
  induction n with
  | zero =>
    intro l hl _
    have h0 : l = [] := List.length_eq_zero.mp (by omega)
    subst h0
    rfl
  | succ m ih =>
    intro l hl hb
    cases l with
    | nil => rw [List.length_nil] at hl; omega
    | cons lo l' =>
      cases l' with
      | nil => rw [List.length_cons, List.length_nil] at hl; omega
      | cons hi rest =>
        show ((((hi <<< 8) ||| lo) :: pairIds rest).flatMap (splitBytes true))
          = lo :: hi :: rest
        rw [List.flatMap_cons,
          splitBytes_pair lo hi (hb lo (List.mem_cons_self lo _))
            (hb hi (List.mem_cons_of_mem lo (List.mem_cons_self hi _))),
          ih rest (by rw [List.length_cons, List.length_cons] at hl; omega)
            (fun b hbm => hb b
              (List.mem_cons_of_mem lo (List.mem_cons_of_mem hi hbm)))]
        rfl

/-- Length of the unpacked byte stream: one or two bytes per id. -/
theorem flatMap_splitBytes_length (db : Bool) (l : List Nat) :
    (l.flatMap (splitBytes db)).length = l.length * (if db then 2 else 1) := by
  induction l with
  | nil => simp
  | cons a t ih =>
    rw [List.flatMap_cons, List.length_append, ih, List.length_cons]
    cases db <;> simp [splitBytes] <;> omega

/-- A successful `Except.bind` on an `ok` value. -/
theorem okE_bind {ε α β : Type} (a : α) (f : α → Except ε β) :
    (Except.ok a : Except ε α).bind f = f a := rfl

/-- The dense-mode round trip in full generality: packing trims the palette
to its live entries and masks every cell id down to the trimmed palette's bit
width, and unpacking re-splits exactly those masked ids into bytes at the
width the trimmed palette demands — whether or not that agrees with the
original ids and width. -/
theorem roundtrip_dense (c : ChunkData) (hsingle : c.is_single = false)
    (hlen : c.data.length =
      (if c.double_bytes then DOUBLE_BLOCKS_PER_CHUNK else BLOCKS_PER_CHUNK))
    (hpal : c.palette.length ≤ 2 ^ 64) :
    (packChunk c).bind unpackChunk = .ok
      ⟨c.palette.filter (fun e => decide (e.ref_count ≠ 0)),
       ((if c.double_bytes then pairIds c.data else c.data).map
         (fun d => d &&& (2 ^ idSize (c.palette.filter
           (fun e => decide (e.ref_count ≠ 0))).length - 1))).flatMap
         (splitBytes (decide (256 <
           (c.palette.filter (fun e => decide (e.ref_count ≠ 0))).length))),
       false,
       decide (256 < (c.palette.filter (fun e => decide (e.ref_count ≠ 0))).length)⟩ := by
  have hfp_le : (c.palette.filter (fun e => decide (e.ref_count ≠ 0))).length ≤ 2 ^ 64 :=
    le_trans (List.length_filter_le _ _) hpal
  have hs1 : 1 ≤ idSize (c.palette.filter (fun e => decide (e.ref_count ≠ 0))).length :=
    idSize_pos _
  have hdvd : idSize (c.palette.filter (fun e => decide (e.ref_count ≠ 0))).length ∣ 64 :=
    idSize_dvd_64 _ hfp_le
  have hids : mapE c.block_at_index (List.range BLOCKS_PER_CHUNK) =
      .ok (if c.double_bytes then pairIds c.data else c.data) := by
    cases hdb : c.double_bytes with
    | false =>
      rw [hdb] at hlen
      simp only [Bool.false_eq_true, if_false] at hlen
      simp only [hdb, Bool.false_eq_true, if_false]
      exact mapE_block_at_index_single_width c hsingle hdb hlen
    | true =>
      rw [hdb] at hlen
      simp only [if_true] at hlen
      simp only [hdb, if_true]
      exact mapE_block_at_index_double_width c hsingle hdb hlen
  have hids_len : (if c.double_bytes then pairIds c.data else c.data).length
      = BLOCKS_PER_CHUNK := by
    cases hdb : c.double_bytes with
    | false =>
      rw [hdb] at hlen
      simp only [Bool.false_eq_true, if_false] at hlen
      simp only [hdb, Bool.false_eq_true, if_false]
      exact hlen
    | true =>
      rw [hdb] at hlen
      simp only [if_true] at hlen
      simp only [hdb, if_true]
      exact pairIds_length BLOCKS_PER_CHUNK c.data (by rw [hlen]; rfl)
  rw [packChunk, hsingle]
  simp only [Bool.false_eq_true, if_false]
  rw [hids]
  simp only [ok_bind, okE_bind]
  rw [unpackChunk]
  simp only [Bool.false_eq_true, if_false]
  rw [unpackGo_packGo
    (idSize (c.palette.filter (fun e => decide (e.ref_count ≠ 0))).length)
    (decide (256 < (c.palette.filter (fun e => decide (e.ref_count ≠ 0))).length))
    hs1 hdvd BLOCKS_PER_CHUNK
    (if c.double_bytes then pairIds c.data else c.data) hids_len
    (by
      rw [hids_len]
      have hk64 : (64 / idSize (c.palette.filter
          (fun e => decide (e.ref_count ≠ 0))).length) ∣ 64 :=
        ⟨idSize (c.palette.filter (fun e => decide (e.ref_count ≠ 0))).length,
          (Nat.div_mul_cancel hdvd).symm⟩
      exact hk64.trans ⟨512, by norm_num [BLOCKS_PER_CHUNK, CHUNK_SIZE]⟩)]
  have hulen : (((if c.double_bytes then pairIds c.data else c.data).map
      (fun d => d &&& (2 ^ idSize (c.palette.filter
        (fun e => decide (e.ref_count ≠ 0))).length - 1))).flatMap
      (splitBytes (decide (256 <
        (c.palette.filter (fun e => decide (e.ref_count ≠ 0))).length)))).length
      = (if decide (256 < (c.palette.filter
          (fun e => decide (e.ref_count ≠ 0))).length) = true
        then DOUBLE_BLOCKS_PER_CHUNK else BLOCKS_PER_CHUNK) := by
    rw [flatMap_splitBytes_length, List.length_map, hids_len]
    by_cases hq : 256 < (c.palette.filter (fun e => decide (e.ref_count ≠ 0))).length
    · rw [if_pos (decide_eq_true hq), if_pos (decide_eq_true hq)]
      rfl
    · rw [if_neg (fun hc => hq (of_decide_eq_true hc)),
        if_neg (fun hc => hq (of_decide_eq_true hc))]
      exact Nat.mul_one _
  rw [if_neg (not_ne_iff.mpr hulen)]

/-- Well-formed single-mode chunk per the spec's invariant: one palette entry
carrying the full cell count, no cell array, one-byte width flag. -/
def singleWF (c : ChunkData) : Prop :=
  ∃ b : BlockState, c = ⟨[⟨BLOCKS_PER_CHUNK, b⟩], [], true, false⟩

/-- Well-formed dense-mode chunk: correctly sized byte array for its width,
width flag matching the palette length, all bytes in range, no free palette
entries, and every decoded cell id inside the palette. -/
def denseWF (c : ChunkData) : Prop :=
  c.is_single = false ∧
  c.double_bytes = decide (256 < c.palette.length) ∧
  c.data.length =
    (if c.double_bytes then DOUBLE_BLOCKS_PER_CHUNK else BLOCKS_PER_CHUNK) ∧
  c.palette.length ≤ 2 ^ 64 ∧
  (∀ e ∈ c.palette, e.ref_count ≠ 0) ∧
  (∀ b ∈ c.data, b < 256) ∧
  (∀ i v, i < BLOCKS_PER_CHUNK → c.block_at_index i = .ok v →
    v < c.palette.length)

/-- Round trip for a well-formed single chunk. -/
theorem roundtrip_single (c : ChunkData) (h : singleWF c) :
    (packChunk c).bind unpackChunk = .ok c := by
  obtain ⟨b, rfl⟩ := h
  rfl

/-- Round trip for a well-formed dense chunk. -/
theorem roundtrip_dense_wf (c : ChunkData) (h : denseWF c) :
    (packChunk c).bind unpackChunk = .ok c := by
  obtain ⟨h1, h2, h3, h4, h5, h6, h7⟩ := h
  rw [roundtrip_dense c h1 h3 h4]
  have hfp : c.palette.filter (fun e => decide (e.ref_count ≠ 0)) = c.palette :=
    List.filter_eq_self.mpr (fun e he => decide_eq_true (h5 e he))
  rw [hfp, ← h2]
  have hids : mapE c.block_at_index (List.range BLOCKS_PER_CHUNK) =
      .ok (if c.double_bytes then pairIds c.data else c.data) := by
    cases hdb : c.double_bytes with
    | false =>
      rw [hdb] at h3
      simp only [Bool.false_eq_true, if_false] at h3
      simp only [hdb, Bool.false_eq_true, if_false]
      exact mapE_block_at_index_single_width c h1 hdb h3
    | true =>
      rw [hdb] at h3
      simp only [if_true] at h3
      simp only [hdb, if_true]
      exact mapE_block_at_index_double_width c h1 hdb h3
  have hids_lt : ∀ v ∈ (if c.double_bytes then pairIds c.data else c.data),
      v < c.palette.length := by
    intro v hv
    obtain ⟨i, hi_mem, hbi⟩ := mapE_ok_mem _ _ _ hids v hv
    exact h7 i v (List.mem_range.mp hi_mem) hbi
  have hmask : (if c.double_bytes then pairIds c.data else c.data).map
      (fun d => d &&& (2 ^ idSize c.palette.length - 1)) =
      (if c.double_bytes then pairIds c.data else c.data) := by
    have hpt : ∀ v ∈ (if c.double_bytes then pairIds c.data else c.data),
        v &&& (2 ^ idSize c.palette.length - 1) = v := by
      intro v hv
      have hvlt : v < 2 ^ idSize c.palette.length :=
        lt_of_lt_of_le (hids_lt v hv) (le_two_pow_idSize _)
      rw [Nat.and_pow_two_sub_one_eq_mod, Nat.mod_eq_of_lt hvlt]
    rw [List.map_congr_left hpt]
    exact List.map_id' _
  rw [hmask]
  have hflat : (if c.double_bytes then pairIds c.data else c.data).flatMap
      (splitBytes c.double_bytes) = c.data := by
    cases hdb : c.double_bytes with
    | false =>
      simp only [hdb, Bool.false_eq_true, if_false]
      exact flatMap_splitBytes_false c.data h6
    | true =>
      rw [hdb] at h3
      simp only [if_true] at h3
      simp only [hdb, if_true]
      exact pairIds_flatMap BLOCKS_PER_CHUNK c.data (by rw [h3]; rfl) h6
  rw [hflat, ← h1]

/-- Packing then unpacking is the identity on every well-formed chunk: single
with the full ref count, or dense with no free palette entries and a
consistent width.  This is the domain on which the spec's round-trip claim
actually holds. -/
theorem c3_roundtrip (c : ChunkData) (h : singleWF c ∨ denseWF c) :
    (packChunk c).bind unpackChunk = .ok c := by
  cases h with
  | inl hs => exact roundtrip_single c hs
  | inr hd => exact roundtrip_dense_wf c hd

/-- Concrete well-formed single chunk for instantiating the round trip. -/
def c3SingleChunk : ChunkData := ⟨[⟨BLOCKS_PER_CHUNK, airState⟩], [], true, false⟩

/-- The round trip at a concrete well-formed single chunk. -/
theorem c3_roundtrip_witness :
    (singleWF c3SingleChunk ∨ denseWF c3SingleChunk) ∧
      (packChunk c3SingleChunk).bind unpackChunk = .ok c3SingleChunk :=
  ⟨Or.inl ⟨airState, rfl⟩, c3_roundtrip c3SingleChunk (Or.inl ⟨airState, rfl⟩)⟩

/-- The round-trip property claimed by the spec for a chunk: the packed form
unpacks successfully to a chunk of the same mode whose every cell decodes to
the same block state. -/
def roundTripPreserves (c : ChunkData) : Prop :=
  ∃ c', (packChunk c).bind unpackChunk = .ok c' ∧ c'.is_single = c.is_single ∧
    ∀ x y z, x < CHUNK_SIZE → y < CHUNK_SIZE → z < CHUNK_SIZE →
      c'.get_block x y z = c.get_block x y z

/-- A dense chunk with a free palette hole between live entries: air live at
slot 0 (32766 cells), a dead entry at slot 1, stone live at slot 2 (the two
cells at linear indices 0 and 1).  Reachable by placing two blocks of one
state, two of another, then overwriting the first two. -/
def c3BadChunk : ChunkData :=
  ⟨[⟨32766, airState⟩, ⟨0, dirtState⟩, ⟨2, stoneState⟩],
   2 :: 2 :: List.replicate 32766 0, false, false⟩

/-- C3: the pack/unpack conversion is claimed to be a value-preserving round
trip for every dense chunk, but packing trims free palette entries while
leaving the stored cell ids untouched and masking them to the trimmed
palette's bit width, so a dense chunk with a free palette hole below a live
entry decodes differently after the round trip: in `c3BadChunk` the stone
cell at (0,0,0) (id 2, masked to 0 at the trimmed one-bit width) comes back
as air. -/
theorem c3_counterexample : ¬ roundTripPreserves c3BadChunk := by
  intro h
  obtain ⟨c', hrt, _, hval⟩ := h
  have hlen : c3BadChunk.data.length =
      (if c3BadChunk.double_bytes then DOUBLE_BLOCKS_PER_CHUNK
        else BLOCKS_PER_CHUNK) := by
    show (2 :: 2 :: List.replicate 32766 0).length = _
    rw [List.length_cons, List.length_cons, List.length_replicate]
    rfl
  have hrt2 := roundtrip_dense c3BadChunk rfl hlen (by decide)
  rw [hrt2] at hrt
  injection hrt with hc'
  have hcell := hval 0 0 0 (by decide) (by decide) (by decide)
  rw [← hc'] at hcell
  exact absurd hcell (by decide)
